import Mathlib

/-!
The package zttl: a sharded, lazily expiring key/deadline store.

Shallow embedding of `ttl.go`.

* A Go `string` key is a finite sequence of bytes: `Key := List (Fin 256)`.
* `int64` values are integers; the one arithmetic operation of the program,
  `now + ttl`, is the wrapping signed 64-bit sum `add64`.
* A Go `map[string]*entry` is a finite partial function `Key → Option entry`;
  every `*entry` is owned by exactly one map slot, so writing through the
  pointer is an update of that slot.
* `time.Now().UnixNano()` is an explicit argument `now` of every operation
  (each operation reads the clock at most once).
* A run-time panic (division by zero, index out of range) is the result `none`.
* `sync.Mutex` carries no data in a sequential run; `Lock`/`Unlock` are kept
  as comments at the places where the source calls them, and are recorded as
  events by the `Traced` versions of the methods.
-/

namespace Zttl

/-! ## Machine integers -/

/-- Smallest `int64`. -/
def minInt64 : Int := -9223372036854775808

/-- Largest `int64`. -/
def maxInt64 : Int := 9223372036854775807

/-- The value is representable as an `int64`. -/
def InInt64 (x : Int) : Prop := minInt64 ≤ x ∧ x ≤ maxInt64

instance (x : Int) : Decidable (InInt64 x) := by
  unfold InInt64; infer_instance

/-- Reduction of an integer to the `int64` it denotes in two's complement. -/
def wrap64 (x : Int) : Int :=
  (x + 9223372036854775808) % 18446744073709551616 - 9223372036854775808

/-- Go's `+` on `int64`: the sum wraps around on overflow. -/
def add64 (a b : Int) : Int := wrap64 (a + b)

/-! ## `hash/crc32.ChecksumIEEE` -/

/-- One byte of a key. -/
abbrev Byte := Fin 256

/-- A Go `string`: a sequence of bytes. -/
abbrev Key := List Byte

/-- One bit of the reflected CRC-32 division by the IEEE polynomial
`0xedb88320`. -/
def crcBit (crc : Nat) : Nat :=
  if crc % 2 = 1 then (crc / 2) ^^^ 0xedb88320 else crc / 2

/-- Feed one byte into the running CRC. -/
def crcByte (crc : Nat) (b : Byte) : Nat :=
  crcBit (crcBit (crcBit (crcBit (crcBit (crcBit (crcBit (crcBit (crc ^^^ b.val))))))))

/-- The function `crc32.ChecksumIEEE` of the Go standard library (bit-serial
form of the table-driven routine): initial value `0xffffffff`, reflected
polynomial `0xedb88320`, final complement. -/
def ChecksumIEEE (data : List Byte) : Nat :=
  (data.foldl crcByte 0xffffffff) ^^^ 0xffffffff

/-! ## Data model -/

/-- The record `entry` of the source. -/
structure entry where
  deadline : Int
  ttl : Int
deriving DecidableEq, Repr

/-- A value of type `map[string]*entry`. -/
abbrev EntryMap := Key → Option entry

/-- A value of type `*sync.Mutex`; it carries no data in a sequential run. -/
structure Mutex where
deriving DecidableEq, Repr

/-- The record `TimeToLive` of the source. -/
structure TimeToLive where
  ttl : Int
  shard : Nat
  mxs : List Mutex
  mm : List EntryMap

/-- The function `New` of the source: a shard count below one is raised to one,
then `shard` mutexes and `shard` empty maps are allocated. -/
def New (shard : Nat) (ttl : Int) : TimeToLive :=
  let shard := if shard < 1 then 1 else shard
  let mxs := List.replicate shard Mutex.mk
  let mm := List.replicate shard (fun _ => none)
  { ttl := ttl, shard := shard, mxs := mxs, mm := mm }

/-- The method `getMM` of the source. Besides the mutex and the map it returns
the index `i`, which stands for the reference to the map `m.mm[i]`: writes to
the map are writes to that slot of the store. `hash % m.shard` panics when
`m.shard` is zero, and the two index expressions panic when `i` is out of
range. -/
def getMM (m : TimeToLive) (key : Key) : Option (Nat × Mutex × EntryMap) :=
  if m.shard = 0 then none
  else
    let hash := ChecksumIEEE key
    let i := hash % m.shard
    match m.mxs[i]?, m.mm[i]? with
    | some mx, some entrys => some (i, mx, entrys)
    | _, _ => none

/-- The method `Add` of the source, run at clock reading `now`. -/
def Add (m : TimeToLive) (now : Int) (key : Key) (ttl : Int) : Option TimeToLive :=
  match getMM m key with
  | none => none
  | some (i, _, entrys) =>
    -- mx.Lock()
    let entrys1 :=
      match entrys key with
      | some e =>
        let e1 := { e with ttl := ttl }
        let e2 := { e1 with deadline := add64 now ttl }
        Function.update entrys key (some e2)
      | none =>
        let e := { ttl := ttl, deadline := add64 now ttl : entry }
        Function.update entrys key (some e)
    -- mx.Unlock()
    some { m with mm := m.mm.set i entrys1 }

/-- The method `AddDefault` of the source. -/
def AddDefault (m : TimeToLive) (now : Int) (key : Key) : Option TimeToLive :=
  Add m now key m.ttl

/-- The method `Get` of the source, run at clock reading `now`: the store after
the call and the returned boolean. -/
def Get (m : TimeToLive) (now : Int) (key : Key) : Option (TimeToLive × Bool) :=
  match getMM m key with
  | none => none
  | some (i, _, entrys) =>
    -- mx.Lock()
    match entrys key with
    | some e =>
      if now ≥ e.deadline then
        -- ok = false; delete(entrys, key)
        some ({ m with mm := m.mm.set i (Function.update entrys key none) }, false)
      else
        some (m, true)
    | none => some (m, false)
    -- mx.Unlock()

/-- The method `GetAndSetTTL` of the source, run at clock reading `now`. -/
def GetAndSetTTL (m : TimeToLive) (now : Int) (key : Key) (ttl : Int) :
    Option (TimeToLive × Bool) :=
  match getMM m key with
  | none => none
  | some (i, _, entrys) =>
    -- mx.Lock()
    match entrys key with
    | some e =>
      if now ≥ e.deadline then
        -- ok = false; delete(entrys, key)
        some ({ m with mm := m.mm.set i (Function.update entrys key none) }, false)
      else
        let ttl := if ttl = 0 then e.ttl else ttl
        let e1 := { e with deadline := add64 now ttl }
        some ({ m with mm := m.mm.set i (Function.update entrys key (some e1)) }, true)
    | none => some (m, false)
    -- mx.Unlock()

/-- The method `GetAndRefresh` of the source. -/
def GetAndRefresh (m : TimeToLive) (now : Int) (key : Key) : Option (TimeToLive × Bool) :=
  GetAndSetTTL m now key 0

/-! ## Observations and call sequences -/

/-- Index of the shard a key is routed to: `hash % m.shard` in `getMM`. -/
def shardIndex (m : TimeToLive) (key : Key) : Nat :=
  ChecksumIEEE key % m.shard

/-- The map of the shard a key is routed to (the empty map when the index is
out of range, which happens in no well-formed store). -/
def shardOf (m : TimeToLive) (key : Key) : EntryMap :=
  (m.mm[shardIndex m key]?).getD (fun _ => none)

/-- The entry of `key` in the map of its routed shard, read through `getMM`
as every operation does. -/
def lookup (m : TimeToLive) (key : Key) : Option entry :=
  match getMM m key with
  | none => none
  | some (_, _, entrys) => entrys key

/-- The store with the map of shard `i` replaced. -/
def setShard (m : TimeToLive) (i : Nat) (f : EntryMap) : TimeToLive :=
  { m with mm := m.mm.set i f }

/-- The store in which the slot of `key` in its routed shard holds `v` (an entry,
or nothing) and every other slot is as in `m`. -/
def put (m : TimeToLive) (key : Key) (v : Option entry) : TimeToLive :=
  setShard m (shardIndex m key) (Function.update (shardOf m key) key v)

/-- Shape of every store that `New` returns and that the methods maintain: at
least one shard, and one mutex and one map per shard. -/
def WF (m : TimeToLive) : Prop :=
  0 < m.shard ∧ m.mxs.length = m.shard ∧ m.mm.length = m.shard

instance (m : TimeToLive) : Decidable (WF m) := by
  unfold WF; infer_instance

/-- Every key held by a shard is routed to that shard. -/
def Placed (m : TimeToLive) : Prop :=
  ∀ i sh, m.mm[i]? = some sh → ∀ k e, sh k = some e → i = shardIndex m k

/-- What a read operation on `key` at clock reading `now` must do, given the
store `m` before the call and the outcome `r` of the call: it returns; the
boolean is `true` exactly when the key is present in its routed shard with
`now < deadline`; on a present entry with `deadline ≤ now` the boolean is
`false` and the key is gone afterwards (from its routed shard, and from every
shard when the store is placed); on an absent key the boolean is `false` and
the store is unchanged. -/
def ReadSpec (m : TimeToLive) (now : Int) (key : Key) (r : Option (TimeToLive × Bool)) : Prop :=
  ∃ m1 b, r = some (m1, b) ∧
    (b = true ↔ ∃ e, lookup m key = some e ∧ now < e.deadline) ∧
    (∀ e, lookup m key = some e → e.deadline ≤ now →
      b = false ∧ lookup m1 key = none ∧ (Placed m → ∀ sh ∈ m1.mm, sh key = none)) ∧
    (lookup m key = none → b = false ∧ m1 = m)

/-- A call of one public method. -/
inductive Op where
  | add (key : Key) (ttl : Int)
  | addDefault (key : Key)
  | get (key : Key)
  | getAndRefresh (key : Key)
  | getAndSetTTL (key : Key) (ttl : Int)
deriving DecidableEq, Repr

/-- The key a call is about. -/
def Op.key : Op → Key
  | .add k _ => k
  | .addDefault k => k
  | .get k => k
  | .getAndRefresh k => k
  | .getAndSetTTL k _ => k

/-- Run one call at clock reading `now`: the store after it and the value it
returns (`none` for the two methods without a return value). -/
def step (m : TimeToLive) (now : Int) : Op → Option (TimeToLive × Option Bool)
  | .add k t => (Add m now k t).map (fun m1 => (m1, none))
  | .addDefault k => (AddDefault m now k).map (fun m1 => (m1, none))
  | .get k => (Get m now k).map (fun r => (r.1, some r.2))
  | .getAndRefresh k => (GetAndRefresh m now k).map (fun r => (r.1, some r.2))
  | .getAndSetTTL k t => (GetAndSetTTL m now k t).map (fun r => (r.1, some r.2))

/-- The deadline that `GetAndSetTTL(key, a)` would store at clock reading `now`
is later than `now`, in case the key is present and live (nothing is asked of
an absent or expired key). -/
def StaysLive (m : TimeToLive) (now : Int) (key : Key) (a : Int) : Prop :=
  match lookup m key with
  | some e => now < e.deadline → now < add64 now (if a = 0 then e.ttl else a)
  | none => True

instance (m : TimeToLive) (now : Int) (key : Key) (a : Int) :
    Decidable (StaysLive m now key a) := by
  unfold StaysLive; split <;> infer_instance

/-- The condition `StaysLive` for the two refreshing calls; no condition for
`Add`, `AddDefault` and `Get`. -/
def Op.staysLive (m : TimeToLive) (now : Int) : Op → Prop
  | .getAndRefresh k => StaysLive m now k 0
  | .getAndSetTTL k a => StaysLive m now k a
  | _ => True

instance (m : TimeToLive) (now : Int) (op : Op) : Decidable (op.staysLive m now) := by
  cases op <;> unfold Op.staysLive <;> infer_instance

/-- Successive clock readings of a caller that touches a key again before a
window of length `t` has passed: time does not run backwards and the gap is
shorter than `t`. -/
def Within (t : Int) (a b : Int) : Prop := a ≤ b ∧ b - a < t

instance (t a b : Int) : Decidable (Within t a b) := by
  unfold Within; infer_instance

/-- Run a sequence of calls, each at its own clock reading: the final store and
the returned values in order. -/
def run (m : TimeToLive) : List (Int × Op) → Option (TimeToLive × List (Option Bool))
  | [] => some (m, [])
  | (now, op) :: rest =>
    match step m now op with
    | none => none
    | some (m1, r) =>
      match run m1 rest with
      | none => none
      | some (m2, rs) => some (m2, r :: rs)

/-- The effect of one call on the slot of its own key, read off the bodies of
the five methods: given the default ttl `d` of the store, the clock reading and
the content `cur` of the slot before the call, the content of the slot after
the call and the returned value. -/
def keyStep (d : Int) (now : Int) (op : Op) (cur : Option entry) :
    Option entry × Option Bool :=
  match op with
  | .add _ t => (some ⟨add64 now t, t⟩, none)
  | .addDefault _ => (some ⟨add64 now d, d⟩, none)
  | .get _ =>
    match cur with
    | some e => if now ≥ e.deadline then (none, some false) else (some e, some true)
    | none => (none, some false)
  | .getAndRefresh _ =>
    match cur with
    | some e =>
      if now ≥ e.deadline then (none, some false)
      else (some ⟨add64 now e.ttl, e.ttl⟩, some true)
    | none => (none, some false)
  | .getAndSetTTL _ a =>
    match cur with
    | some e =>
      if now ≥ e.deadline then (none, some false)
      else (some ⟨add64 now (if a = 0 then e.ttl else a), e.ttl⟩, some true)
    | none => (none, some false)

/-- The call is `Add` or `AddDefault`. -/
def Op.isAdd : Op → Bool
  | .add _ _ => true
  | .addDefault _ => true
  | _ => false

/-- The sum `now + ttl` that `GetAndSetTTL(key, a)` computes on store `m` at
clock reading `now`, if it computes one (the key is present and live), is
representable as an `int64`. -/
def RefreshNoOverflow (m : TimeToLive) (now : Int) (key : Key) (a : Int) : Prop :=
  match lookup m key with
  | some e => now < e.deadline → InInt64 (now + (if a = 0 then e.ttl else a))
  | none => True

instance (m : TimeToLive) (now : Int) (key : Key) (a : Int) :
    Decidable (RefreshNoOverflow m now key a) := by
  unfold RefreshNoOverflow; split <;> infer_instance

/-- The sum `now + ttl` that the call computes on store `m` at clock reading
`now`, if it computes one, is representable as an `int64`. -/
def NoOverflow (m : TimeToLive) (now : Int) : Op → Prop
  | .add _ t => InInt64 (now + t)
  | .addDefault _ => InInt64 (now + m.ttl)
  | .get _ => True
  | .getAndRefresh k => RefreshNoOverflow m now k 0
  | .getAndSetTTL k a => RefreshNoOverflow m now k a

instance (m : TimeToLive) (now : Int) (op : Op) : Decidable (NoOverflow m now op) := by
  cases op <;> unfold NoOverflow <;> infer_instance

/-- No call of the sequence overflows when the sequence is run from `m`. -/
def RunNoOverflow (m : TimeToLive) : List (Int × Op) → Prop
  | [] => True
  | (now, op) :: rest =>
    NoOverflow m now op ∧
    match step m now op with
    | none => True
    | some (m1, _) => RunNoOverflow m1 rest

/-- Every entry of the store whose deadline is later than `last` has a positive
stored ttl. -/
def LiveHasTTL (m : TimeToLive) (last : Int) : Prop :=
  ∀ sh ∈ m.mm, ∀ k e, sh k = some e → last < e.deadline → 0 < e.ttl

/-- Two stores that differ at most in the slot of `key`, where the first may
hold an entry that is expired at clock reading `n` while the second holds
nothing. -/
def Sim (key : Key) (n : Int) (s s1 : TimeToLive) : Prop :=
  WF s ∧ WF s1 ∧ s.ttl = s1.ttl ∧ (∀ k, k ≠ key → lookup s k = lookup s1 k) ∧
    (lookup s key = lookup s1 key ∨
      (lookup s1 key = none ∧ ∃ e, lookup s key = some e ∧ e.deadline ≤ n))

/-- Every entry found through the routed shard of its key and having a deadline
later than `last` has a positive stored ttl. -/
def LiveHasTTLRouted (m : TimeToLive) (last : Int) : Prop :=
  ∀ k e, lookup m k = some e → last < e.deadline → 0 < e.ttl

/-! ## Lock events -/

/-- A call of `Lock` or `Unlock` on the mutex `m.mxs[i]`. `New` allocates one
mutex per index, so the index names the mutex. -/
inductive LockEvent where
  | lock (i : Nat)
  | unlock (i : Nat)
deriving DecidableEq, Repr

/-- The mutexes held after a sequence of lock events, starting with none held:
`Lock` adds the mutex, `Unlock` releases it. -/
def held (evs : List LockEvent) : List Nat :=
  evs.foldl (fun acc ev =>
    match ev with
    | .lock i => i :: acc
    | .unlock i => acc.erase i) []

/-- The method `Add` of the source with its calls of `mx.Lock()` and
`mx.Unlock()` recorded, in program order, next to the store it returns. -/
def AddTraced (m : TimeToLive) (now : Int) (key : Key) (ttl : Int) :
    Option (TimeToLive × List LockEvent) :=
  match getMM m key with
  | none => none
  | some (i, _, entrys) =>
    let tr := [LockEvent.lock i]
    let entrys1 :=
      match entrys key with
      | some e =>
        let e1 := { e with ttl := ttl }
        let e2 := { e1 with deadline := add64 now ttl }
        Function.update entrys key (some e2)
      | none =>
        let e := { ttl := ttl, deadline := add64 now ttl : entry }
        Function.update entrys key (some e)
    let tr := tr ++ [LockEvent.unlock i]
    some ({ m with mm := m.mm.set i entrys1 }, tr)

/-- The method `AddDefault` of the source with the lock events of the `Add` it
calls; it touches no mutex itself. -/
def AddDefaultTraced (m : TimeToLive) (now : Int) (key : Key) :
    Option (TimeToLive × List LockEvent) :=
  AddTraced m now key m.ttl

/-- The method `Get` of the source with its calls of `mx.Lock()` and
`mx.Unlock()` recorded: the lock is taken before the lookup and released after
the `if`, on both of its paths. -/
def GetTraced (m : TimeToLive) (now : Int) (key : Key) :
    Option (TimeToLive × Bool × List LockEvent) :=
  match getMM m key with
  | none => none
  | some (i, _, entrys) =>
    let tr := [LockEvent.lock i]
    let r : TimeToLive × Bool :=
      match entrys key with
      | some e =>
        if now ≥ e.deadline then
          ({ m with mm := m.mm.set i (Function.update entrys key none) }, false)
        else
          (m, true)
      | none => (m, false)
    let tr := tr ++ [LockEvent.unlock i]
    some (r.1, r.2, tr)

/-- The method `GetAndSetTTL` of the source with its calls of `mx.Lock()` and
`mx.Unlock()` recorded: the lock is taken before the lookup and released after
the outer `if`, on all of its paths. -/
def GetAndSetTTLTraced (m : TimeToLive) (now : Int) (key : Key) (ttl : Int) :
    Option (TimeToLive × Bool × List LockEvent) :=
  match getMM m key with
  | none => none
  | some (i, _, entrys) =>
    let tr := [LockEvent.lock i]
    let r : TimeToLive × Bool :=
      match entrys key with
      | some e =>
        if now ≥ e.deadline then
          ({ m with mm := m.mm.set i (Function.update entrys key none) }, false)
        else
          let ttl := if ttl = 0 then e.ttl else ttl
          let e1 := { e with deadline := add64 now ttl }
          ({ m with mm := m.mm.set i (Function.update entrys key (some e1)) }, true)
      | none => (m, false)
    let tr := tr ++ [LockEvent.unlock i]
    some (r.1, r.2, tr)

/-- The method `GetAndRefresh` of the source with the lock events of the
`GetAndSetTTL` it calls; it touches no mutex itself. -/
def GetAndRefreshTraced (m : TimeToLive) (now : Int) (key : Key) :
    Option (TimeToLive × Bool × List LockEvent) :=
  GetAndSetTTLTraced m now key 0

/-- Run one call with its lock events recorded: the store after it, the value
it returns and the events in program order. -/
def stepTraced (m : TimeToLive) (now : Int) :
    Op → Option (TimeToLive × Option Bool × List LockEvent)
  | .add k t => (AddTraced m now k t).map (fun r => (r.1, none, r.2))
  | .addDefault k => (AddDefaultTraced m now k).map (fun r => (r.1, none, r.2))
  | .get k => (GetTraced m now k).map (fun r => (r.1, some r.2.1, r.2.2))
  | .getAndRefresh k => (GetAndRefreshTraced m now k).map (fun r => (r.1, some r.2.1, r.2.2))
  | .getAndSetTTL k t => (GetAndSetTTLTraced m now k t).map (fun r => (r.1, some r.2.1, r.2.2))

/-- The lock events of a call that locks the mutex `i` once and unlocks it. -/
def lockUnlock (i : Nat) : List LockEvent := [LockEvent.lock i, LockEvent.unlock i]

/-! ## Basic facts -/

theorem wrap64_of_inInt64 {x : Int} (h : InInt64 x) : wrap64 x = x := by
  unfold InInt64 minInt64 maxInt64 at h
  unfold wrap64
  omega

theorem add64_of_inInt64 {a b : Int} (h : InInt64 (a + b)) : add64 a b = a + b :=
  wrap64_of_inInt64 h

theorem add64_left_cancel {n a b : Int} (ha : InInt64 a) (hb : InInt64 b)
    (h : add64 n a = add64 n b) : a = b := by
  unfold InInt64 minInt64 maxInt64 at ha hb
  unfold add64 wrap64 at h
  omega

theorem New_wf (n : Nat) (d : Int) : WF (New n d) := by
  unfold WF New
  by_cases h : n < 1
  · simp [h]
  · simp [h]; omega

theorem shardIndex_lt {m : TimeToLive} (h : WF m) (key : Key) :
    shardIndex m key < m.mm.length := by
  unfold shardIndex
  rw [h.2.2]
  exact Nat.mod_lt _ h.1

theorem getMM_eq {m : TimeToLive} (h : WF m) (key : Key) :
    getMM m key = some (shardIndex m key, Mutex.mk, shardOf m key) := by
  have hlt := shardIndex_lt h key
  have hlt2 : shardIndex m key < m.mxs.length := by rw [h.2.1, ← h.2.2]; exact hlt
  have hne : m.shard ≠ 0 := Nat.pos_iff_ne_zero.mp h.1
  unfold getMM
  simp only [hne, if_false]
  show (match m.mxs[shardIndex m key]?, m.mm[shardIndex m key]? with
    | some mx, some entrys => some (shardIndex m key, mx, entrys)
    | _, _ => none) = _
  unfold shardOf
  rw [List.getElem?_eq_getElem hlt, List.getElem?_eq_getElem hlt2]
  rfl

theorem lookup_eq {m : TimeToLive} (h : WF m) (key : Key) :
    lookup m key = shardOf m key key := by
  unfold lookup
  rw [getMM_eq h]

theorem setShard_wf {m : TimeToLive} (h : WF m) (i : Nat) (f : EntryMap) :
    WF (setShard m i f) := by
  unfold WF setShard
  simpa using h

theorem shardIndex_setShard (m : TimeToLive) (i : Nat) (f : EntryMap) (key : Key) :
    shardIndex (setShard m i f) key = shardIndex m key := rfl

theorem shardOf_setShard {m : TimeToLive} (h : WF m) (i : Nat) (f : EntryMap) (key : Key) :
    shardOf (setShard m i f) key = if shardIndex m key = i then f else shardOf m key := by
  have hlt := shardIndex_lt h key
  unfold shardOf
  rw [shardIndex_setShard]
  show ((m.mm.set i f)[shardIndex m key]?).getD _ = _
  by_cases hi : shardIndex m key = i
  · subst hi
    simp [hlt]
  · simp [hi, List.getElem?_set_ne (Ne.symm hi)]

theorem setShard_setShard (m : TimeToLive) (i : Nat) (f g : EntryMap) :
    setShard (setShard m i f) i g = setShard m i g := by
  unfold setShard
  simp [List.set_set]

theorem setShard_self {m : TimeToLive} (h : WF m) (key : Key) :
    setShard m (shardIndex m key) (shardOf m key) = m := by
  have hlt := shardIndex_lt h key
  unfold setShard shardOf
  cases m with
  | mk ttl shard mxs mm =>
    simp only [TimeToLive.mk.injEq, true_and]
    apply List.ext_getElem?
    intro j
    by_cases hj : shardIndex ⟨ttl, shard, mxs, mm⟩ key = j
    · subst hj
      simp [List.getElem?_eq_getElem hlt] at *
      simp [hlt]
    · rw [List.getElem?_set_ne hj]

theorem put_wf {m : TimeToLive} (h : WF m) (key : Key) (v : Option entry) :
    WF (put m key v) := setShard_wf h _ _

theorem shardOf_put {m : TimeToLive} (h : WF m) (key : Key) (v : Option entry) (key1 : Key) :
    shardOf (put m key v) key1 =
      if shardIndex m key1 = shardIndex m key then Function.update (shardOf m key) key v
      else shardOf m key1 := by
  unfold put
  rw [shardOf_setShard h]

theorem shardOf_congr {m : TimeToLive} {k1 k2 : Key} (h : shardIndex m k1 = shardIndex m k2) :
    shardOf m k1 = shardOf m k2 := by
  unfold shardOf
  rw [h]

theorem lookup_put {m : TimeToLive} (h : WF m) (key : Key) (v : Option entry) (key1 : Key) :
    lookup (put m key v) key1 = if key1 = key then v else lookup m key1 := by
  rw [lookup_eq (put_wf h key v), lookup_eq h, shardOf_put h]
  by_cases hk : key1 = key
  · subst hk
    simp
  · by_cases hi : shardIndex m key1 = shardIndex m key
    · simp [hi, hk, Function.update_noteq hk, shardOf_congr hi]
    · simp [hi, hk]

theorem lookup_put_self {m : TimeToLive} (h : WF m) (key : Key) (v : Option entry) :
    lookup (put m key v) key = v := by
  rw [lookup_put h]; simp

theorem lookup_put_ne {m : TimeToLive} (h : WF m) (key : Key) (v : Option entry) {key1 : Key}
    (hne : key1 ≠ key) : lookup (put m key v) key1 = lookup m key1 := by
  rw [lookup_put h]; simp [hne]

theorem put_put {m : TimeToLive} (h : WF m) (key : Key) (v w : Option entry) :
    put (put m key v) key w = put m key w := by
  have h1 : shardOf (put m key v) key = Function.update (shardOf m key) key v := by
    rw [shardOf_put h]; simp
  have h2 : shardIndex (put m key v) key = shardIndex m key := rfl
  show setShard (put m key v) (shardIndex (put m key v) key)
      (Function.update (shardOf (put m key v) key) key w) = _
  rw [h1, h2, Function.update_idem]
  exact setShard_setShard m _ _ _

theorem put_lookup {m : TimeToLive} (h : WF m) (key : Key) :
    put m key (lookup m key) = m := by
  unfold put
  rw [lookup_eq h, Function.update_eq_self]
  exact setShard_self h key

theorem put_eq_self {m : TimeToLive} (h : WF m) {key : Key} {v : Option entry}
    (hv : lookup m key = v) : put m key v = m := by
  rw [← hv]; exact put_lookup h key

theorem put_ttl (m : TimeToLive) (key : Key) (v : Option entry) : (put m key v).ttl = m.ttl := rfl

theorem put_shard (m : TimeToLive) (key : Key) (v : Option entry) :
    (put m key v).shard = m.shard := rfl

theorem Add_eq {m : TimeToLive} (h : WF m) (now : Int) (key : Key) (ttl : Int) :
    Add m now key ttl = some (put m key (some ⟨add64 now ttl, ttl⟩)) := by
  unfold Add
  rw [getMM_eq h]
  cases hk : shardOf m key key <;> simp [hk, put, setShard]

theorem AddDefault_eq {m : TimeToLive} (h : WF m) (now : Int) (key : Key) :
    AddDefault m now key = some (put m key (some ⟨add64 now m.ttl, m.ttl⟩)) :=
  Add_eq h now key m.ttl

theorem Get_absent {m : TimeToLive} (h : WF m) (now : Int) {key : Key}
    (hk : lookup m key = none) : Get m now key = some (m, false) := by
  rw [lookup_eq h] at hk
  unfold Get
  rw [getMM_eq h]
  simp [hk]

theorem Get_expired {m : TimeToLive} (h : WF m) {now : Int} {key : Key} {e : entry}
    (hk : lookup m key = some e) (hd : e.deadline ≤ now) :
    Get m now key = some (put m key none, false) := by
  rw [lookup_eq h] at hk
  unfold Get
  rw [getMM_eq h]
  simp [hk, hd, put, setShard]

theorem Get_live {m : TimeToLive} (h : WF m) {now : Int} {key : Key} {e : entry}
    (hk : lookup m key = some e) (hd : now < e.deadline) :
    Get m now key = some (m, true) := by
  rw [lookup_eq h] at hk
  unfold Get
  rw [getMM_eq h]
  simp [hk, not_le.mpr hd]

theorem GetAndSetTTL_absent {m : TimeToLive} (h : WF m) (now : Int) {key : Key} (ttl : Int)
    (hk : lookup m key = none) : GetAndSetTTL m now key ttl = some (m, false) := by
  rw [lookup_eq h] at hk
  unfold GetAndSetTTL
  rw [getMM_eq h]
  simp [hk]

theorem GetAndSetTTL_expired {m : TimeToLive} (h : WF m) {now : Int} {key : Key} (ttl : Int)
    {e : entry} (hk : lookup m key = some e) (hd : e.deadline ≤ now) :
    GetAndSetTTL m now key ttl = some (put m key none, false) := by
  rw [lookup_eq h] at hk
  unfold GetAndSetTTL
  rw [getMM_eq h]
  simp [hk, hd, put, setShard]

theorem GetAndSetTTL_live {m : TimeToLive} (h : WF m) {now : Int} {key : Key} (ttl : Int)
    {e : entry} (hk : lookup m key = some e) (hd : now < e.deadline) :
    GetAndSetTTL m now key ttl =
      some (put m key (some ⟨add64 now (if ttl = 0 then e.ttl else ttl), e.ttl⟩), true) := by
  rw [lookup_eq h] at hk
  unfold GetAndSetTTL
  rw [getMM_eq h]
  simp [hk, not_le.mpr hd, put, setShard]

theorem put_none_absent {m : TimeToLive} (h : WF m) (hp : Placed m) (key : Key) :
    ∀ sh ∈ (put m key none).mm, sh key = none := by
  intro sh hsh
  obtain ⟨j, hj⟩ := List.mem_iff_getElem?.mp hsh
  have hj1 : (m.mm.set (shardIndex m key) (Function.update (shardOf m key) key none))[j]?
      = some sh := hj
  by_cases hij : shardIndex m key = j
  · subst hij
    have hlt := shardIndex_lt h key
    rw [List.getElem?_eq_getElem (by simpa using hlt)] at hj1
    simp only [List.getElem_set_self, Option.some.injEq] at hj1
    rw [← hj1]
    simp
  · rw [List.getElem?_set_ne hij] at hj1
    cases hv : sh key with
    | none => rfl
    | some e => exact absurd (hp j sh hj1 key e hv).symm hij

theorem step_frame {m : TimeToLive} (h : WF m) (now : Int) (op : Op) :
    ∃ m1 r, step m now op = some (m1, r) ∧ WF m1 ∧
      ∀ k, k ≠ op.key → lookup m1 k = lookup m k := by
  have key_cases : ∀ (key : Key) (ttl : Int),
      ∃ m1 b, GetAndSetTTL m now key ttl = some (m1, b) ∧ WF m1 ∧
        ∀ k, k ≠ key → lookup m1 k = lookup m k := by
    intro key ttl
    cases hk : lookup m key with
    | none => exact ⟨m, false, GetAndSetTTL_absent h now ttl hk, h, fun _ _ => rfl⟩
    | some e =>
      by_cases hd : e.deadline ≤ now
      · exact ⟨_, false, GetAndSetTTL_expired h ttl hk hd, put_wf h _ _,
          fun k hne => lookup_put_ne h key none hne⟩
      · exact ⟨_, true, GetAndSetTTL_live h ttl hk (not_le.mp hd), put_wf h _ _,
          fun k hne => lookup_put_ne h key _ hne⟩
  cases op with
  | add key ttl =>
    exact ⟨put m key (some ⟨add64 now ttl, ttl⟩), none, by simp [step, Add_eq h], put_wf h _ _,
      fun k hne => lookup_put_ne h key _ hne⟩
  | addDefault key =>
    exact ⟨put m key (some ⟨add64 now m.ttl, m.ttl⟩), none, by simp [step, AddDefault_eq h],
      put_wf h _ _, fun k hne => lookup_put_ne h key _ hne⟩
  | get key =>
    cases hk : lookup m key with
    | none => exact ⟨m, some false, by simp [step, Get_absent h now hk], h, fun _ _ => rfl⟩
    | some e =>
      by_cases hd : e.deadline ≤ now
      · exact ⟨_, some false, by simp [step, Get_expired h hk hd], put_wf h _ _,
          fun k hne => lookup_put_ne h key none hne⟩
      · exact ⟨m, some true, by simp [step, Get_live h hk (not_le.mp hd)], h, fun _ _ => rfl⟩
  | getAndRefresh key =>
    obtain ⟨m1, b, h1, h2, h3⟩ := key_cases key 0
    exact ⟨m1, some b, by simp [step, GetAndRefresh, h1], h2, h3⟩
  | getAndSetTTL key ttl =>
    obtain ⟨m1, b, h1, h2, h3⟩ := key_cases key ttl
    exact ⟨m1, some b, by simp [step, h1], h2, h3⟩

theorem run_frame {m : TimeToLive} (h : WF m) (ops : List (Int × Op)) (key : Key)
    (hops : ∀ x ∈ ops, x.2.key ≠ key) :
    ∃ m1 rs, run m ops = some (m1, rs) ∧ WF m1 ∧ lookup m1 key = lookup m key := by
  induction ops generalizing m with
  | nil => exact ⟨m, [], rfl, h, rfl⟩
  | cons x rest ih =>
    obtain ⟨now, op⟩ := x
    obtain ⟨m1, r, h1, hw1, hf1⟩ := step_frame h now op
    have hne : key ≠ op.key := fun hc => hops (now, op) (List.mem_cons_self _ _) hc.symm
    obtain ⟨m2, rs, h2, hw2, hf2⟩ :=
      ih hw1 (fun y hy => hops y (List.mem_cons_of_mem _ hy))
    refine ⟨m2, r :: rs, ?_, hw2, ?_⟩
    · simp [run, h1, h2]
    · rw [hf2, hf1 key hne]

theorem readSpec_getAndSetTTL {m : TimeToLive} (h : WF m) (now : Int) (key : Key) (ttl : Int) :
    ReadSpec m now key (GetAndSetTTL m now key ttl) := by
  unfold ReadSpec
  cases hk : lookup m key with
  | none =>
    refine ⟨m, false, GetAndSetTTL_absent h now ttl hk, ?_, ?_, ?_⟩
    · simp
    · intro e he; simp at he
    · intro _; exact ⟨rfl, rfl⟩
  | some e =>
    by_cases hd : e.deadline ≤ now
    · refine ⟨_, false, GetAndSetTTL_expired h ttl hk hd, ?_, ?_, ?_⟩
      · simp [not_lt.mpr hd]
      · intro e1 _ _
        exact ⟨rfl, lookup_put_self h key none, fun hp => put_none_absent h hp key⟩
      · intro hc; simp at hc
    · refine ⟨_, true, GetAndSetTTL_live h ttl hk (not_le.mp hd), ?_, ?_, ?_⟩
      · simp [not_le.mp hd]
      · intro e1 he1 hd1
        simp only [Option.some.injEq] at he1
        subst he1
        exact absurd hd1 hd
      · intro hc; simp at hc

theorem readSpec_get {m : TimeToLive} (h : WF m) (now : Int) (key : Key) :
    ReadSpec m now key (Get m now key) := by
  unfold ReadSpec
  cases hk : lookup m key with
  | none =>
    refine ⟨m, false, Get_absent h now hk, ?_, ?_, ?_⟩
    · simp
    · intro e he; simp at he
    · intro _; exact ⟨rfl, rfl⟩
  | some e =>
    by_cases hd : e.deadline ≤ now
    · refine ⟨_, false, Get_expired h hk hd, ?_, ?_, ?_⟩
      · simp [not_lt.mpr hd]
      · intro e1 _ _
        exact ⟨rfl, lookup_put_self h key none, fun hp => put_none_absent h hp key⟩
      · intro hc; simp at hc
    · refine ⟨m, true, Get_live h hk (not_le.mp hd), ?_, ?_, ?_⟩
      · simp [not_le.mp hd]
      · intro e1 he1 hd1
        simp only [Option.some.injEq] at he1
        subst he1
        exact absurd hd1 hd
      · intro hc; simp at hc

/-- A `Get` that finds a live entry returns `true` and the store itself; no
assumption on the shape of the store is needed, since the lookup succeeded. -/
theorem Get_of_lookup_live {m : TimeToLive} {now : Int} {key : Key} {e : entry}
    (hk : lookup m key = some e) (hd : now < e.deadline) :
    Get m now key = some (m, true) := by
  unfold lookup at hk
  unfold Get
  cases hg : getMM m key with
  | none => simp [hg] at hk
  | some r =>
    obtain ⟨i, mx, entrys⟩ := r
    simp only [hg] at hk
    simp [hk, not_le.mpr hd]

/-- A `Get` that returns `true` found an entry with `now < deadline`. -/
theorem lookup_of_Get_true {m : TimeToLive} {now : Int} {key : Key}
    (h : (Get m now key).map Prod.snd = some true) :
    ∃ e, lookup m key = some e ∧ now < e.deadline := by
  unfold Get at h
  unfold lookup
  cases hg : getMM m key with
  | none => simp [hg] at h
  | some r =>
    obtain ⟨i, mx, entrys⟩ := r
    simp only [hg] at h ⊢
    cases he : entrys key with
    | none => simp [he] at h
    | some e =>
      refine ⟨e, rfl, ?_⟩
      by_contra hd
      simp [he, not_lt.mp hd] at h

theorem run_gets_live {m : TimeToLive} {key : Key} {e : entry} (hk : lookup m key = some e)
    (nows : List Int) (hn : ∀ n ∈ nows, n < e.deadline) :
    run m (nows.map (fun n => (n, Op.get key))) = some (m, nows.map (fun _ => some true)) := by
  induction nows with
  | nil => rfl
  | cons n rest ih =>
    have h1 := Get_of_lookup_live hk (hn n (List.mem_cons_self _ _))
    have h2 := ih (fun x hx => hn x (List.mem_cons_of_mem _ hx))
    simp [run, step, h1] at h2 ⊢
    simp [h2]

theorem run_refresh_chain (key : Key) (t : Int) :
    ∀ (ns : List Int) (m : TimeToLive) (prev : Int), WF m →
      lookup m key = some ⟨prev + t, t⟩ → List.Chain (Within t) prev ns →
      (∀ n ∈ ns, InInt64 (n + t)) →
      ∃ m2, run m (ns.map (fun n => (n, Op.getAndRefresh key)))
          = some (m2, ns.map (fun _ => some true)) ∧ WF m2 ∧
        lookup m2 key = some ⟨(prev :: ns).getLast (List.cons_ne_nil _ _) + t, t⟩ := by
  intro ns
  induction ns with
  | nil =>
    intro m prev hm hl _ _
    exact ⟨m, rfl, hm, by simpa using hl⟩
  | cons n rest ih =>
    intro m prev hm hl hc hin
    rw [List.chain_cons] at hc
    obtain ⟨⟨_, hgap⟩, hrest⟩ := hc
    have hlive : n < (⟨prev + t, t⟩ : entry).deadline := by
      show n < prev + t
      omega
    have h1 := GetAndSetTTL_live hm 0 hl hlive
    simp only [if_true] at h1
    have hsum : add64 n t = n + t := add64_of_inInt64 (hin n (List.mem_cons_self _ _))
    rw [hsum] at h1
    obtain ⟨m2, hrun, hw2, hl2⟩ := ih (put m key (some ⟨n + t, t⟩)) n (put_wf hm _ _)
      (lookup_put_self hm key _) hrest (fun x hx => hin x (List.mem_cons_of_mem _ hx))
    refine ⟨m2, ?_, hw2, ?_⟩
    · simp only [List.map_cons, run, step, GetAndRefresh, h1, Option.map_some', hrun]
    · rw [List.getLast_cons_cons]
      exact hl2

theorem step_eq {m : TimeToLive} (h : WF m) (now : Int) (op : Op) :
    step m now op = some (put m op.key (keyStep m.ttl now op (lookup m op.key)).1,
      (keyStep m.ttl now op (lookup m op.key)).2) := by
  have refresh : ∀ (key : Key) (a : Int),
      (GetAndSetTTL m now key a).map (fun r => (r.1, some r.2)) =
        some (put m key (keyStep m.ttl now (.getAndSetTTL key a) (lookup m key)).1,
          (keyStep m.ttl now (.getAndSetTTL key a) (lookup m key)).2) := by
    intro key a
    cases hk : lookup m key with
    | none =>
      rw [GetAndSetTTL_absent h now a hk]
      simp [keyStep, put_eq_self h hk]
    | some e =>
      by_cases hd : e.deadline ≤ now
      · rw [GetAndSetTTL_expired h a hk hd]
        simp [keyStep, hd]
      · rw [GetAndSetTTL_live h a hk (not_le.mp hd)]
        simp [keyStep, hd]
  cases op with
  | add key ttl => simp [step, Add_eq h, keyStep, Op.key]
  | addDefault key => simp [step, AddDefault_eq h, keyStep, Op.key]
  | get key =>
    show (Get m now key).map _ = some (put m key (keyStep m.ttl now (.get key) (lookup m key)).1,
      (keyStep m.ttl now (.get key) (lookup m key)).2)
    cases hk : lookup m key with
    | none =>
      rw [Get_absent h now hk]
      simp [keyStep, Op.key, put_eq_self h hk]
    | some e =>
      by_cases hd : e.deadline ≤ now
      · rw [Get_expired h hk hd]
        simp [keyStep, Op.key, hd]
      · rw [Get_live h hk (not_le.mp hd)]
        simp [keyStep, Op.key, hd, put_eq_self h hk]
  | getAndRefresh key =>
    have h0 := refresh key 0
    show (GetAndSetTTL m now key 0).map _ =
      some (put m key (keyStep m.ttl now (.getAndRefresh key) (lookup m key)).1,
        (keyStep m.ttl now (.getAndRefresh key) (lookup m key)).2)
    rw [h0]
    cases hk : lookup m key <;> simp [keyStep]
  | getAndSetTTL key ttl => exact refresh key ttl

theorem mm_put {m : TimeToLive} (h : WF m) (key : Key) (v : Option entry) (j : Nat) :
    (put m key v).mm[j]? =
      if j = shardIndex m key then some (Function.update (shardOf m key) key v)
      else m.mm[j]? := by
  have hlt := shardIndex_lt h key
  show (m.mm.set (shardIndex m key) (Function.update (shardOf m key) key v))[j]? = _
  by_cases hj : j = shardIndex m key
  · subst hj
    rw [if_pos rfl, List.getElem?_eq_getElem (by simpa using hlt)]
    simp
  · rw [if_neg hj, List.getElem?_set_ne (Ne.symm hj)]

theorem shardOf_eq_of_getElem? {m : TimeToLive} {key : Key} {sh : EntryMap}
    (h : m.mm[shardIndex m key]? = some sh) : shardOf m key = sh := by
  unfold shardOf
  rw [h]
  rfl

theorem getElem?_shardIndex {m : TimeToLive} (h : WF m) (key : Key) :
    m.mm[shardIndex m key]? = some (shardOf m key) := by
  have hlt := shardIndex_lt h key
  unfold shardOf
  rw [List.getElem?_eq_getElem hlt]
  rfl

theorem New_placed (n : Nat) (d : Int) : Placed (New n d) := by
  intro i sh hi k e he
  have hmem : sh ∈ (New n d).mm := List.mem_iff_getElem?.mpr ⟨i, hi⟩
  have hsh : sh = fun _ => none := List.eq_of_mem_replicate hmem
  rw [hsh] at he
  simp at he

theorem put_placed {m : TimeToLive} (h : WF m) (hp : Placed m) (key : Key) (v : Option entry) :
    Placed (put m key v) := by
  intro i sh hi k e he
  show i = shardIndex m k
  rw [mm_put h] at hi
  by_cases hj : i = shardIndex m key
  · rw [if_pos hj] at hi
    simp only [Option.some.injEq] at hi
    subst hi
    by_cases hk : k = key
    · rw [hk, hj]
    · rw [Function.update_noteq hk] at he
      have := hp (shardIndex m key) (shardOf m key) (getElem?_shardIndex h key) k e he
      rw [hj, this]
  · rw [if_neg hj] at hi
    exact hp i sh hi k e he

theorem lookup_of_placed {m : TimeToLive} (hp : Placed m) {i : Nat} {sh : EntryMap}
    {k : Key} {e : entry} (hi : m.mm[i]? = some sh) (he : sh k = some e) (h : WF m) :
    lookup m k = some e := by
  have hidx := hp i sh hi k e he
  rw [lookup_eq h, shardOf_eq_of_getElem? (hidx ▸ hi)]
  exact he

/-- From a well-formed store every sequence of calls runs to the end; the final
store is well-formed, has the same shard count, default ttl and mutexes, and
is placed if the first one was. -/
theorem run_total {m : TimeToLive} (h : WF m) (ops : List (Int × Op)) :
    ∃ m1 rs, run m ops = some (m1, rs) ∧ WF m1 ∧ m1.shard = m.shard ∧ m1.ttl = m.ttl ∧
      m1.mxs = m.mxs ∧ rs.length = ops.length ∧ (Placed m → Placed m1) := by
  induction ops generalizing m with
  | nil => exact ⟨m, [], rfl, h, rfl, rfl, rfl, rfl, id⟩
  | cons x rest ih =>
    obtain ⟨now, op⟩ := x
    have h1 := step_eq h now op
    obtain ⟨m2, rs, h2, hw2, hs2, ht2, hx2, hl2, hp2⟩ :=
      ih (put_wf h op.key (keyStep m.ttl now op (lookup m op.key)).1)
    refine ⟨m2, (keyStep m.ttl now op (lookup m op.key)).2 :: rs, ?_, hw2, hs2, ht2, hx2,
      ?_, ?_⟩
    · simp only [run, h1, h2]
    · simp [hl2]
    · intro hp
      exact hp2 (put_placed h hp _ _)

/-- Whatever the store, a call that returns leaves the shard count, the default
ttl, the mutexes and the number of maps as they were. -/
theorem step_fields {m m1 : TimeToLive} {now : Int} {op : Op} {r : Option Bool}
    (h : step m now op = some (m1, r)) :
    m1.shard = m.shard ∧ m1.ttl = m.ttl ∧ m1.mxs = m.mxs ∧ m1.mm.length = m.mm.length := by
  have hadd : ∀ (key : Key) (t : Int) (m2 : TimeToLive), Add m now key t = some m2 →
      m2.shard = m.shard ∧ m2.ttl = m.ttl ∧ m2.mxs = m.mxs ∧ m2.mm.length = m.mm.length := by
    intro key t m2 h2
    unfold Add at h2
    cases hg : getMM m key with
    | none => simp [hg] at h2
    | some g =>
      obtain ⟨i, mx, entrys⟩ := g
      simp only [hg, Option.some.injEq] at h2
      subst h2
      simp
  have hget : ∀ (key : Key) (m2 : TimeToLive) (b : Bool), Get m now key = some (m2, b) →
      m2.shard = m.shard ∧ m2.ttl = m.ttl ∧ m2.mxs = m.mxs ∧ m2.mm.length = m.mm.length := by
    intro key m2 b h2
    unfold Get at h2
    cases hg : getMM m key with
    | none => simp [hg] at h2
    | some g =>
      obtain ⟨i, mx, entrys⟩ := g
      simp only [hg] at h2
      cases he : entrys key with
      | none =>
        simp only [he, Option.some.injEq, Prod.mk.injEq] at h2
        rw [← h2.1]
        simp
      | some e =>
        simp only [he] at h2
        split at h2 <;>
          · simp only [Option.some.injEq, Prod.mk.injEq] at h2
            rw [← h2.1]
            simp
  have hset : ∀ (key : Key) (a : Int) (m2 : TimeToLive) (b : Bool),
      GetAndSetTTL m now key a = some (m2, b) →
      m2.shard = m.shard ∧ m2.ttl = m.ttl ∧ m2.mxs = m.mxs ∧ m2.mm.length = m.mm.length := by
    intro key a m2 b h2
    unfold GetAndSetTTL at h2
    cases hg : getMM m key with
    | none => simp [hg] at h2
    | some g =>
      obtain ⟨i, mx, entrys⟩ := g
      simp only [hg] at h2
      cases he : entrys key with
      | none =>
        simp only [he, Option.some.injEq, Prod.mk.injEq] at h2
        rw [← h2.1]
        simp
      | some e =>
        simp only [he] at h2
        split at h2 <;>
          · simp only [Option.some.injEq, Prod.mk.injEq] at h2
            rw [← h2.1]
            simp
  cases op with
  | add key t =>
    simp only [step, Option.map_eq_some'] at h
    obtain ⟨m2, h2, h3⟩ := h
    simp only [Prod.mk.injEq] at h3
    rw [← h3.1]
    exact hadd key t m2 h2
  | addDefault key =>
    simp only [step, Option.map_eq_some'] at h
    obtain ⟨m2, h2, h3⟩ := h
    simp only [Prod.mk.injEq] at h3
    rw [← h3.1]
    exact hadd key m.ttl m2 h2
  | get key =>
    simp only [step, Option.map_eq_some'] at h
    obtain ⟨⟨m2, b⟩, h2, h3⟩ := h
    simp only [Prod.mk.injEq] at h3
    rw [← h3.1]
    exact hget key m2 b h2
  | getAndRefresh key =>
    simp only [step, Option.map_eq_some'] at h
    obtain ⟨⟨m2, b⟩, h2, h3⟩ := h
    simp only [Prod.mk.injEq] at h3
    rw [← h3.1]
    exact hset key 0 m2 b h2
  | getAndSetTTL key a =>
    simp only [step, Option.map_eq_some'] at h
    obtain ⟨⟨m2, b⟩, h2, h3⟩ := h
    simp only [Prod.mk.injEq] at h3
    rw [← h3.1]
    exact hset key a m2 b h2

theorem run_fields {m : TimeToLive} (ops : List (Int × Op)) {m1 : TimeToLive}
    {rs : List (Option Bool)} (h : run m ops = some (m1, rs)) :
    m1.shard = m.shard ∧ m1.ttl = m.ttl ∧ m1.mxs = m.mxs ∧ m1.mm.length = m.mm.length := by
  induction ops generalizing m m1 rs with
  | nil =>
    simp only [run, Option.some.injEq, Prod.mk.injEq] at h
    rw [← h.1]
    exact ⟨rfl, rfl, rfl, rfl⟩
  | cons x rest ih =>
    obtain ⟨now, op⟩ := x
    unfold run at h
    cases hs : step m now op with
    | none => simp [hs] at h
    | some r1 =>
      obtain ⟨m2, r⟩ := r1
      simp only [hs] at h
      cases hr : run m2 rest with
      | none => simp [hr] at h
      | some r2 =>
        obtain ⟨m3, rs3⟩ := r2
        simp only [hr, Option.some.injEq, Prod.mk.injEq] at h
        obtain ⟨a1, a2, a3, a4⟩ := step_fields hs
        obtain ⟨hm, _⟩ := h
        subst hm
        obtain ⟨b1, b2, b3, b4⟩ := ih hr
        exact ⟨b1.trans a1, b2.trans a2, b3.trans a3, b4.trans a4⟩

theorem keyStep_expired (d now : Int) (op : Op) {e : entry} (h : e.deadline ≤ now) :
    keyStep d now op (some e) = keyStep d now op none := by
  cases op <;> simp [keyStep, h]

theorem step_sim {key : Key} {n : Int} {s s1 : TimeToLive} (h : Sim key n s s1)
    (now : Int) (hn : n ≤ now) (op : Op) :
    keyStep s.ttl now op (lookup s op.key) = keyStep s1.ttl now op (lookup s1 op.key) ∧
    Sim key n (put s op.key (keyStep s.ttl now op (lookup s op.key)).1)
      (put s1 op.key (keyStep s1.ttl now op (lookup s1 op.key)).1) := by
  obtain ⟨hw, hw1, ht, hother, hkey⟩ := h
  have heq : keyStep s.ttl now op (lookup s op.key)
      = keyStep s1.ttl now op (lookup s1 op.key) := by
    rw [ht]
    by_cases hk : op.key = key
    · rcases hkey with h1 | ⟨h1, e, h2, h3⟩
      · rw [hk, h1]
      · rw [hk, h1, h2]
        exact keyStep_expired _ _ _ (le_trans h3 hn)
    · rw [hother _ hk]
  refine ⟨heq, put_wf hw _ _, put_wf hw1 _ _, ht, ?_, ?_⟩
  · intro k hk
    rw [lookup_put hw, lookup_put hw1, heq, hother k hk]
  · by_cases hk : key = op.key
    · left
      rw [hk, lookup_put_self hw, lookup_put_self hw1, heq]
    · rw [lookup_put_ne hw _ _ hk, lookup_put_ne hw1 _ _ hk]
      exact hkey

theorem run_sim {key : Key} {n : Int} (ops : List (Int × Op)) :
    ∀ {s s1 : TimeToLive}, Sim key n s s1 → (∀ x ∈ ops, n ≤ x.1) →
      ∃ m m1 rs, run s ops = some (m, rs) ∧ run s1 ops = some (m1, rs) := by
  induction ops with
  | nil => intro s s1 _ _; exact ⟨s, s1, [], rfl, rfl⟩
  | cons x rest ih =>
    intro s s1 h hall
    obtain ⟨now, op⟩ := x
    have hn : n ≤ now := hall (now, op) (List.mem_cons_self _ _)
    obtain ⟨heq, hsim⟩ := step_sim h now hn op
    obtain ⟨m, m1, rs, h1, h2⟩ := ih hsim (fun y hy => hall y (List.mem_cons_of_mem _ hy))
    refine ⟨m, m1, (keyStep s.ttl now op (lookup s op.key)).2 :: rs, ?_, ?_⟩
    · simp only [run, step_eq h.1, h1]
    · simp only [run, step_eq h.2.1, h2, heq]

theorem le_of_chain_le {n : Int} {l : List Int} (h : List.Chain (fun a b => a ≤ b) n l) :
    ∀ x ∈ l, n ≤ x := by
  induction l generalizing n with
  | nil => intro x hx; simp at hx
  | cons y rest ih =>
    rw [List.chain_cons] at h
    intro x hx
    rcases List.mem_cons.mp hx with hx | hx
    · rw [hx]; exact h.1
    · exact le_trans h.1 (ih h.2 x hx)

theorem run_absent {key : Key} (ops : List (Int × Op)) :
    ∀ {m : TimeToLive}, WF m → lookup m key = none →
      (∀ x ∈ ops, x.2.key = key → x.2.isAdd = false) →
      ∃ m1 rs, run m ops = some (m1, rs) ∧ rs.length = ops.length ∧
        lookup m1 key = none ∧
        ∀ p ∈ ops.zip rs, p.1.2.key = key → p.2 = some false := by
  induction ops with
  | nil =>
    intro m _ hl _
    exact ⟨m, [], rfl, rfl, hl, by simp⟩
  | cons x rest ih =>
    intro m hm hl hops
    obtain ⟨now, op⟩ := x
    have hstep := step_eq hm now op
    have hop := hops (now, op) (List.mem_cons_self _ _)
    have hres : op.key = key → (keyStep m.ttl now op (lookup m op.key)) = (none, some false) := by
      intro hk
      have hna := hop hk
      rw [hk, hl]
      cases op <;> simp [Op.isAdd] at hna <;> simp [keyStep]
    have hl1 : lookup (put m op.key (keyStep m.ttl now op (lookup m op.key)).1) key = none := by
      by_cases hk : op.key = key
      · rw [hres hk, ← hk, lookup_put_self hm]
      · rw [lookup_put_ne hm _ _ (Ne.symm hk)]
        exact hl
    obtain ⟨m1, rs, hrun, hlen, hl2, hz⟩ :=
      ih (put_wf hm _ _) hl1 (fun y hy => hops y (List.mem_cons_of_mem _ hy))
    refine ⟨m1, (keyStep m.ttl now op (lookup m op.key)).2 :: rs, ?_, ?_, hl2, ?_⟩
    · simp only [run, hstep, hrun]
    · simp [hlen]
    · intro p hp hk
      rw [List.zip_cons_cons] at hp
      rcases List.mem_cons.mp hp with hp | hp
      · rw [hp] at hk ⊢
        rw [hres hk]
      · exact hz p hp hk

theorem New_mm_empty (n : Nat) (d : Int) : ∀ sh ∈ (New n d).mm, ∀ k, sh k = none := by
  intro sh hsh k
  have h : sh = fun _ => none := List.eq_of_mem_replicate hsh
  rw [h]

theorem New_lookup (n : Nat) (d : Int) (key : Key) : lookup (New n d) key = none := by
  have hw := New_wf n d
  rw [lookup_eq hw]
  have hmem : shardOf (New n d) key ∈ (New n d).mm :=
    List.mem_iff_getElem?.mpr ⟨_, getElem?_shardIndex hw key⟩
  exact New_mm_empty n d _ hmem key

set_option maxRecDepth 100000 in
/-- The check value of CRC-32/IEEE: the checksum of the ASCII string
`"123456789"` is `0xcbf43926`. -/
theorem ChecksumIEEE_check : ChecksumIEEE [49, 50, 51, 52, 53, 54, 55, 56, 57] = 0xcbf43926 := by
  decide

theorem step_liveHasTTL {m : TimeToLive} (hm : WF m) {last now : Int} (op : Op)
    (hinv : LiveHasTTLRouted m last) (hle : last ≤ now) (hno : NoOverflow m now op) :
    LiveHasTTLRouted (put m op.key (keyStep m.ttl now op (lookup m op.key)).1) now := by
  intro k e hk hd
  rw [lookup_put hm] at hk
  by_cases hkey : k = op.key
  · rw [if_pos hkey] at hk
    have refresh : ∀ (key : Key) (a : Int), RefreshNoOverflow m now key a →
        ∀ cur, lookup m key = cur →
        (match cur with
          | some e0 =>
            if now ≥ e0.deadline then ((none : Option entry), some false)
            else (some ⟨add64 now (if a = 0 then e0.ttl else a), e0.ttl⟩, some true)
          | none => (none, some false)).1 = some e → 0 < e.ttl := by
      intro key a _ cur hcur hres
      cases cur with
      | none => simp at hres
      | some e0 =>
        by_cases hd0 : now ≥ e0.deadline
        · simp [hd0] at hres
        · simp only [hd0, if_false, Option.some.injEq] at hres
          rw [← hres]
          exact hinv key e0 hcur (lt_of_le_of_lt hle (not_le.mp hd0))
    cases op with
    | add key t =>
      simp only [keyStep, Option.some.injEq] at hk
      have hin : InInt64 (now + t) := hno
      rw [← hk] at hd ⊢
      have hd1 : now < add64 now t := hd
      rw [add64_of_inInt64 hin] at hd1
      show 0 < t
      omega
    | addDefault key =>
      simp only [keyStep, Option.some.injEq] at hk
      have hin : InInt64 (now + m.ttl) := hno
      rw [← hk] at hd ⊢
      have hd1 : now < add64 now m.ttl := hd
      rw [add64_of_inInt64 hin] at hd1
      show 0 < m.ttl
      omega
    | get key =>
      have hkk : (Op.get key).key = key := rfl
      rw [hkk] at hk
      cases hcur : lookup m key with
      | none => simp [keyStep, hcur] at hk
      | some e0 =>
        by_cases hd0 : now ≥ e0.deadline
        · simp [keyStep, hcur, hd0] at hk
        · simp only [keyStep, hcur, hd0, if_false, Option.some.injEq] at hk
          rw [← hk]
          exact hinv key e0 hcur (lt_of_le_of_lt hle (not_le.mp hd0))
    | getAndRefresh key =>
      have hkk : (Op.getAndRefresh key).key = key := rfl
      rw [hkk] at hk
      exact refresh key 0 hno (lookup m key) rfl (by simpa [keyStep] using hk)
    | getAndSetTTL key a =>
      have hkk : (Op.getAndSetTTL key a).key = key := rfl
      rw [hkk] at hk
      exact refresh key a hno (lookup m key) rfl (by simpa [keyStep] using hk)
  · rw [if_neg hkey] at hk
    exact hinv k e hk (lt_of_le_of_lt hle hd)

theorem run_liveHasTTL (ops : List (Int × Op)) :
    ∀ {m : TimeToLive} {t0 : Int}, WF m → LiveHasTTLRouted m t0 →
      List.Chain (fun a b => a ≤ b) t0 (ops.map Prod.fst) → RunNoOverflow m ops →
      ∃ m1 rs, run m ops = some (m1, rs) ∧ WF m1 ∧ (Placed m → Placed m1) ∧
        LiveHasTTLRouted m1 ((t0 :: ops.map Prod.fst).getLast (List.cons_ne_nil _ _)) := by
  induction ops with
  | nil =>
    intro m t0 hm hinv _ _
    exact ⟨m, [], rfl, hm, id, by simpa using hinv⟩
  | cons x rest ih =>
    intro m t0 hm hinv hchain hno
    obtain ⟨now, op⟩ := x
    have hstep := step_eq hm now op
    rw [List.map_cons, List.chain_cons] at hchain
    unfold RunNoOverflow at hno
    simp only [hstep] at hno
    obtain ⟨m1, rs, hrun, hw1, hp1, hinv1⟩ :=
      ih (put_wf hm _ _) (step_liveHasTTL hm op hinv hchain.1 hno.1) hchain.2 hno.2
    refine ⟨m1, (keyStep m.ttl now op (lookup m op.key)).2 :: rs, ?_, hw1, ?_, ?_⟩
    · simp only [run, hstep, hrun]
    · intro hp
      exact hp1 (put_placed hm hp _ _)
    · simp only [List.map_cons, List.getLast_cons_cons]
      exact hinv1

theorem getMM_index {m : TimeToLive} {key : Key} {i : Nat} {mx : Mutex} {sh : EntryMap}
    (h : getMM m key = some (i, mx, sh)) : i = ChecksumIEEE key % m.shard := by
  unfold getMM at h
  by_cases h0 : m.shard = 0
  · simp [h0] at h
  · simp only [h0, if_false] at h
    split at h
    · simp only [Option.some.injEq, Prod.mk.injEq] at h
      exact h.1.symm
    · simp at h

/-- Recording the lock events does not change what `Add` does, and the events
are one `Lock` and one `Unlock` of the mutex of the routed shard. -/
theorem AddTraced_eq (m : TimeToLive) (now : Int) (key : Key) (ttl : Int) :
    AddTraced m now key ttl =
      (Add m now key ttl).map (fun m1 => (m1, lockUnlock (ChecksumIEEE key % m.shard))) := by
  unfold AddTraced Add
  cases hg : getMM m key with
  | none => rfl
  | some g =>
    obtain ⟨i, mx, entrys⟩ := g
    have hi := getMM_index hg
    subst hi
    rfl

theorem GetTraced_eq (m : TimeToLive) (now : Int) (key : Key) :
    GetTraced m now key =
      (Get m now key).map (fun r => (r.1, r.2, lockUnlock (ChecksumIEEE key % m.shard))) := by
  unfold GetTraced Get
  cases hg : getMM m key with
  | none => rfl
  | some g =>
    obtain ⟨i, mx, entrys⟩ := g
    have hi := getMM_index hg
    subst hi
    simp only
    cases he : entrys key with
    | none => rfl
    | some e =>
      by_cases hd : now ≥ e.deadline
      · simp [hd, lockUnlock]
      · simp [hd, lockUnlock]

theorem GetAndSetTTLTraced_eq (m : TimeToLive) (now : Int) (key : Key) (ttl : Int) :
    GetAndSetTTLTraced m now key ttl =
      (GetAndSetTTL m now key ttl).map
        (fun r => (r.1, r.2, lockUnlock (ChecksumIEEE key % m.shard))) := by
  unfold GetAndSetTTLTraced GetAndSetTTL
  cases hg : getMM m key with
  | none => rfl
  | some g =>
    obtain ⟨i, mx, entrys⟩ := g
    have hi := getMM_index hg
    subst hi
    simp only
    cases he : entrys key with
    | none => rfl
    | some e =>
      by_cases hd : now ≥ e.deadline
      · simp [hd, lockUnlock]
      · simp [hd, lockUnlock]

theorem stepTraced_eq (m : TimeToLive) (now : Int) (op : Op) :
    stepTraced m now op =
      (step m now op).map (fun r => (r.1, r.2, lockUnlock (ChecksumIEEE op.key % m.shard))) := by
  cases op with
  | add k t => simp [stepTraced, step, AddTraced_eq, Op.key, Function.comp_def]
  | addDefault k =>
    simp [stepTraced, step, AddDefaultTraced, AddDefault, AddTraced_eq, Op.key,
      Function.comp_def]
  | get k => simp [stepTraced, step, GetTraced_eq, Op.key, Function.comp_def]
  | getAndRefresh k =>
    simp [stepTraced, step, GetAndRefreshTraced, GetAndRefresh, GetAndSetTTLTraced_eq, Op.key,
      Function.comp_def]
  | getAndSetTTL k t =>
    simp [stepTraced, step, GetAndSetTTLTraced_eq, Op.key, Function.comp_def]

/-- In the events of one `Lock` followed by the `Unlock` of the same mutex,
every prefix holds at most that mutex, the whole holds none, and the `Lock`
happens with no mutex held. -/
theorem lockUnlock_discipline (i : Nat) :
    held (lockUnlock i) = [] ∧
    (∀ pre suf, lockUnlock i = pre ++ suf → (held pre).length ≤ 1 ∧ ∀ j ∈ held pre, j = i) ∧
    (∀ pre j suf, lockUnlock i = pre ++ LockEvent.lock j :: suf → held pre = [] ∧ j = i) ∧
    (∀ pre j suf, lockUnlock i = pre ++ LockEvent.unlock j :: suf → held pre = [i] ∧ j = i) := by
  refine ⟨by simp [held, lockUnlock], ?_, ?_, ?_⟩
  · intro pre suf h
    rcases pre with _ | ⟨x, _ | ⟨y, _ | ⟨z, rest⟩⟩⟩
    · simp [held]
    · simp only [lockUnlock, List.cons_append, List.nil_append, List.cons.injEq] at h
      rw [← h.1]
      simp [held]
    · simp only [lockUnlock, List.cons_append, List.nil_append, List.cons.injEq] at h
      rw [← h.1, ← h.2.1]
      simp [held]
    · simp [lockUnlock] at h
  · intro pre j suf h
    rcases pre with _ | ⟨x, _ | ⟨y, rest⟩⟩
    · simp only [lockUnlock, List.nil_append, List.cons.injEq, LockEvent.lock.injEq] at h
      exact ⟨by simp [held], h.1.symm⟩
    · simp [lockUnlock] at h
    · simp [lockUnlock] at h
  · intro pre j suf h
    rcases pre with _ | ⟨x, _ | ⟨y, rest⟩⟩
    · simp [lockUnlock] at h
    · simp only [lockUnlock, List.cons_append, List.nil_append, List.cons.injEq,
        LockEvent.unlock.injEq] at h
      rw [← h.1]
      exact ⟨by simp [held], h.2.1.symm⟩
    · simp [lockUnlock] at h

/-! ## The claims -/

/-- C1, as stated, fails: a store built by `New`, the key `"foo"`, the positive
ttl `math.MaxInt64` and a clock reading of the year 2023. The sum `now + ttl`
wraps to a negative deadline and the `Get` that follows the `Add` at the same
clock reading returns `false`. -/
theorem C1_counterexample :
    WF (New 4 100000000) ∧ (0 : Int) < 9223372036854775807 ∧
    InInt64 9223372036854775807 ∧ InInt64 1700000000000000000 ∧
    ((Add (New 4 100000000) 1700000000000000000 [102, 111, 111] 9223372036854775807).bind
      (fun m1 => Get m1 1700000000000000000 [102, 111, 111])).map Prod.snd = some false := by
  decide

/-- C1, amended: for every well-formed store (every store built by `New` is
one), every key, every ttl `t > 0` and every `int64` clock reading `now` such
that `now + t` does not exceed the largest `int64`: `Add(k, t)` returns, and
`Get(k)` evaluated right after it at the same clock reading returns `true`. -/
theorem C1_get_after_add (m : TimeToLive) (hm : WF m) (key : Key) (t now : Int)
    (ht : 0 < t) (hnow : InInt64 now) (hsum : now + t ≤ maxInt64) :
    ∃ m1, Add m now key t = some m1 ∧ ∃ m2, Get m1 now key = some (m2, true) := by
  have hin : InInt64 (now + t) := ⟨by have := hnow.1; omega, hsum⟩
  have hlive : now < add64 now t := by
    rw [add64_of_inInt64 hin]
    omega
  exact ⟨_, Add_eq hm now key t, _,
    Get_live (put_wf hm _ _) (lookup_put_self hm key _) hlive⟩

/-- Witness of C1 (amended): `New(4, 100ms)`, key `"foo"`, ttl 100ms, a clock
reading of the year 2023. -/
theorem C1_get_after_add_witness :
    WF (New 4 100000000) ∧ (0 : Int) < 100000000 ∧ InInt64 1700000000000000000 ∧
    (1700000000000000000 : Int) + 100000000 ≤ maxInt64 ∧
    ∃ m1, Add (New 4 100000000) 1700000000000000000 [102, 111, 111] 100000000 = some m1 ∧
      ∃ m2, Get m1 1700000000000000000 [102, 111, 111] = some (m2, true) :=
  ⟨by decide, by decide, by decide, by decide,
    C1_get_after_add (New 4 100000000) (by decide) [102, 111, 111] 100000000
      1700000000000000000 (by decide) (by decide) (by decide)⟩

/-- C2, as stated, fails in its last part: `New(1, 0)`, the empty key,
`t = 8e18`, `Add` at `n0 = 1e18`, `Get` at `n1 = 9.1e18` (so `n1 - n0 > t`) and
the second `Add` at `n2 = n1`. The first `Get` returns `false` as claimed, but
the sum `n2 + t` computed by the second `Add` wraps to a negative deadline,
and the `Get` at `n2` returns `false`, not `true`. -/
theorem C2_counterexample :
    WF (New 1 0) ∧ (0 : Int) < 8000000000000000000 ∧
    (9100000000000000000 : Int) - 1000000000000000000 > 8000000000000000000 ∧
    InInt64 1000000000000000000 ∧ InInt64 9100000000000000000 ∧
    InInt64 8000000000000000000 ∧
    (((Add (New 1 0) 1000000000000000000 [] 8000000000000000000).bind
        (fun m1 => Get m1 9100000000000000000 [])).bind
        (fun r => Add r.1 9100000000000000000 [] 8000000000000000000)).map
        (fun m4 => (lookup m4 []).map entry.deadline)
      = some (some (-1346744073709551616)) ∧
    ((((Add (New 1 0) 1000000000000000000 [] 8000000000000000000).bind
        (fun m1 => Get m1 9100000000000000000 [])).bind
        (fun r => Add r.1 9100000000000000000 [] 8000000000000000000)).bind
        (fun m4 => Get m4 9100000000000000000 [])).map Prod.snd = some false := by
  decide

/-- C2, amended: for every well-formed store, key `k` and ttl `t > 0`: if
`Add(k, t)` runs at clock reading `n0`, any calls on other keys follow, and
`Get(k)` runs at `n1` with `n1 - n0 > t`, that `Get` returns `false` (for all
`int64` readings `n0`, `n1`, with no further condition); and for every clock
reading `n2 ≥ n1` for which `n2 + t` does not exceed the largest `int64`, a
following `Add(k, t)` at `n2` stores the stored ttl `t` and the deadline
`n2 + t`, which is not the old deadline, so that `Get(k)` at `n2` returns
`true`. -/
theorem C2_expire_then_fresh_window (m : TimeToLive) (hm : WF m) (key : Key)
    (t n0 n1 : Int) (ops : List (Int × Op)) (hops : ∀ x ∈ ops, x.2.key ≠ key)
    (ht : 0 < t) (hgap : n1 - n0 > t) (hn0 : InInt64 n0) (hn1 : InInt64 n1) :
    ∃ m1, Add m n0 key t = some m1 ∧
    ∃ m2 rs, run m1 ops = some (m2, rs) ∧
    ∃ m3, Get m2 n1 key = some (m3, false) ∧
    ∀ n2 : Int, n1 ≤ n2 → n2 + t ≤ maxInt64 →
      ∃ m4, Add m3 n2 key t = some m4 ∧
        lookup m4 key = some ⟨n2 + t, t⟩ ∧ n2 + t ≠ add64 n0 t ∧
      ∃ m5, Get m4 n2 key = some (m5, true) := by
  have hin0 : InInt64 (n0 + t) :=
    ⟨by have := hn0.1; omega, by have := hn1.2; omega⟩
  have hw1 : WF (put m key (some ⟨add64 n0 t, t⟩)) := put_wf hm _ _
  obtain ⟨m2, rs, hrun, hw2, hl2⟩ := run_frame hw1 ops key hops
  rw [lookup_put_self hm] at hl2
  have hexp : (⟨add64 n0 t, t⟩ : entry).deadline ≤ n1 := by
    show add64 n0 t ≤ n1
    rw [add64_of_inInt64 hin0]
    omega
  have hw3 : WF (put m2 key none) := put_wf hw2 _ _
  refine ⟨_, Add_eq hm n0 key t, m2, rs, hrun, _, Get_expired hw2 hl2 hexp, ?_⟩
  intro n2 hmono hsum
  have hin2 : InInt64 (n2 + t) := ⟨by have := hn1.1; omega, hsum⟩
  have hl4 : lookup (put (put m2 key none) key (some ⟨add64 n2 t, t⟩)) key
      = some ⟨n2 + t, t⟩ := by
    rw [lookup_put_self hw3, add64_of_inInt64 hin2]
  refine ⟨_, Add_eq hw3 n2 key t, hl4, ?_, _, Get_live (put_wf hw3 _ _) hl4 ?_⟩
  · rw [add64_of_inInt64 hin0]
    omega
  · show n2 < n2 + t
    omega

/-- Witness of C2 (amended): `New(4, 100ms)`, key `"foo"`, ttl 100, `Add` at 0,
a call on another key, `Get` at 101, and the second half taken at the reading
150 of the second `Add`. -/
theorem C2_expire_then_fresh_window_witness :
    WF (New 4 100000000) ∧
    (∀ x ∈ [((50 : Int), Op.add [98] 7)], x.2.key ≠ [102, 111, 111]) ∧
    (0 : Int) < 100 ∧ (101 : Int) - 0 > 100 ∧ InInt64 0 ∧ InInt64 101 ∧
    ∃ m1, Add (New 4 100000000) 0 [102, 111, 111] 100 = some m1 ∧
    ∃ m2 rs, run m1 [((50 : Int), Op.add [98] 7)] = some (m2, rs) ∧
    ∃ m3, Get m2 101 [102, 111, 111] = some (m3, false) ∧
    ∃ m4, Add m3 150 [102, 111, 111] 100 = some m4 ∧
      lookup m4 [102, 111, 111] = some ⟨150 + 100, 100⟩ ∧ (150 : Int) + 100 ≠ add64 0 100 ∧
    ∃ m5, Get m4 150 [102, 111, 111] = some (m5, true) :=
  match C2_expire_then_fresh_window (New 4 100000000) (by decide) [102, 111, 111] 100 0 101
      [((50 : Int), Op.add [98] 7)] (by decide) (by decide) (by decide) (by decide)
      (by decide) with
  | ⟨m1, h1, m2, rs, h2, m3, h3, h4⟩ =>
    ⟨by decide, by decide, by decide, by decide, by decide, by decide,
      m1, h1, m2, rs, h2, m3, h3, h4 150 (by decide) (by decide)⟩

/-- C3: in every well-formed store, for every key and clock reading, each read
operation (`Get`, `GetAndSetTTL` with any ttl, `GetAndRefresh`) returns, and
returns `true` if and only if the key is present in its routed shard with
`now < deadline`; when the key is present with `deadline ≤ now` (the boundary
`now = deadline` included) it returns `false` and the key is absent afterwards
(from its routed shard, and from every shard of a placed store); when the key
is absent it returns `false` and the store is unchanged. -/
theorem C3_read_operations (m : TimeToLive) (hm : WF m) (now : Int) (key : Key) :
    ReadSpec m now key (Get m now key) ∧
    (∀ ttl, ReadSpec m now key (GetAndSetTTL m now key ttl)) ∧
    ReadSpec m now key (GetAndRefresh m now key) :=
  ⟨readSpec_get hm now key, fun ttl => readSpec_getAndSetTTL hm now key ttl,
    readSpec_getAndSetTTL hm now key 0⟩

/-- Witness of C3: a four-shard store holding `"foo"` with deadline 10, read at
the boundary clock reading 10. -/
theorem C3_read_operations_witness :
    WF (put (New 4 100) [102, 111, 111] (some ⟨10, 10⟩)) ∧
    (ReadSpec (put (New 4 100) [102, 111, 111] (some ⟨10, 10⟩)) 10 [102, 111, 111]
      (Get (put (New 4 100) [102, 111, 111] (some ⟨10, 10⟩)) 10 [102, 111, 111]) ∧
    (∀ ttl, ReadSpec (put (New 4 100) [102, 111, 111] (some ⟨10, 10⟩)) 10 [102, 111, 111]
      (GetAndSetTTL (put (New 4 100) [102, 111, 111] (some ⟨10, 10⟩)) 10 [102, 111, 111] ttl)) ∧
    ReadSpec (put (New 4 100) [102, 111, 111] (some ⟨10, 10⟩)) 10 [102, 111, 111]
      (GetAndRefresh (put (New 4 100) [102, 111, 111] (some ⟨10, 10⟩)) 10 [102, 111, 111])) :=
  ⟨by decide, C3_read_operations (put (New 4 100) [102, 111, 111] (some ⟨10, 10⟩)) (by decide)
    10 [102, 111, 111]⟩

/-- C4: `Get` is a pure read on a live key. If `Get(k)` returns `true`, the
store after the call is the store before it (so the deadline and stored ttl of
every key are unchanged), and any number of further `Get(k)` calls at clock
readings inside the window all return `true` and leave that same store. -/
theorem C4_get_pure_read (m : TimeToLive) (now : Int) (key : Key)
    (h : (Get m now key).map Prod.snd = some true) :
    Get m now key = some (m, true) ∧
    ∀ nows : List Int, (∀ n ∈ nows, ∀ e, lookup m key = some e → n < e.deadline) →
      run m (nows.map (fun n => (n, Op.get key))) = some (m, nows.map (fun _ => some true)) := by
  obtain ⟨e, he, hd⟩ := lookup_of_Get_true h
  exact ⟨Get_of_lookup_live he hd, fun nows hn => run_gets_live he nows (fun n hn1 => hn n hn1 e he)⟩

/-- Witness of C4: a four-shard store holding `"foo"` with deadline 10, read at
clock reading 5. -/
theorem C4_get_pure_read_witness :
    (Get (put (New 4 100) [102, 111, 111] (some ⟨10, 10⟩)) 5 [102, 111, 111]).map Prod.snd
      = some true ∧
    (Get (put (New 4 100) [102, 111, 111] (some ⟨10, 10⟩)) 5 [102, 111, 111]
      = some (put (New 4 100) [102, 111, 111] (some ⟨10, 10⟩), true) ∧
    ∀ nows : List Int, (∀ n ∈ nows, ∀ e,
        lookup (put (New 4 100) [102, 111, 111] (some ⟨10, 10⟩)) [102, 111, 111] = some e →
          n < e.deadline) →
      run (put (New 4 100) [102, 111, 111] (some ⟨10, 10⟩))
          (nows.map (fun n => (n, Op.get [102, 111, 111])))
        = some (put (New 4 100) [102, 111, 111] (some ⟨10, 10⟩),
            nows.map (fun _ => some true))) :=
  ⟨by decide, C4_get_pure_read (put (New 4 100) [102, 111, 111] (some ⟨10, 10⟩)) 5
    [102, 111, 111] (by decide)⟩

/-- C5: in every well-formed store, if the key is present with `now < deadline`,
`GetAndSetTTL(k, a)` returns `true`; afterwards the stored ttl of the key is
what it was before the call and its deadline is the `int64` sum `now + a` when
`a ≠ 0` and `now + (stored ttl)` when `a = 0`. The `int64` sum is the integer
sum whenever that lies in the `int64` range. -/
theorem C5_getAndSetTTL_live (m : TimeToLive) (hm : WF m) (key : Key) (a now : Int)
    (e : entry) (hk : lookup m key = some e) (hd : now < e.deadline) :
    ∃ m1, GetAndSetTTL m now key a = some (m1, true) ∧
    ∃ e1, lookup m1 key = some e1 ∧ e1.ttl = e.ttl ∧
      (a ≠ 0 → e1.deadline = add64 now a ∧ (InInt64 (now + a) → e1.deadline = now + a)) ∧
      (a = 0 → e1.deadline = add64 now e.ttl ∧
        (InInt64 (now + e.ttl) → e1.deadline = now + e.ttl)) := by
  refine ⟨_, GetAndSetTTL_live hm a hk hd, _, lookup_put_self hm key _, rfl, ?_, ?_⟩
  · intro ha
    rw [if_neg ha]
    exact ⟨rfl, fun hin => add64_of_inInt64 hin⟩
  · intro ha
    rw [if_pos ha]
    exact ⟨rfl, fun hin => add64_of_inInt64 hin⟩

/-- Witness of C5: a four-shard store holding `"foo"` with deadline 10 and
stored ttl 7, refreshed at clock reading 5 with the override 3. -/
theorem C5_getAndSetTTL_live_witness :
    WF (put (New 4 100) [102, 111, 111] (some ⟨10, 7⟩)) ∧
    lookup (put (New 4 100) [102, 111, 111] (some ⟨10, 7⟩)) [102, 111, 111] = some ⟨10, 7⟩ ∧
    (5 : Int) < (⟨10, 7⟩ : entry).deadline ∧
    ∃ m1, GetAndSetTTL (put (New 4 100) [102, 111, 111] (some ⟨10, 7⟩)) 5 [102, 111, 111] 3
        = some (m1, true) ∧
    ∃ e1, lookup m1 [102, 111, 111] = some e1 ∧ e1.ttl = (⟨10, 7⟩ : entry).ttl ∧
      ((3 : Int) ≠ 0 → e1.deadline = add64 5 3 ∧ (InInt64 (5 + 3) → e1.deadline = 5 + 3)) ∧
      ((3 : Int) = 0 → e1.deadline = add64 5 (⟨10, 7⟩ : entry).ttl ∧
        (InInt64 (5 + (⟨10, 7⟩ : entry).ttl) → e1.deadline = 5 + (⟨10, 7⟩ : entry).ttl)) :=
  ⟨by decide, by decide, by decide,
    C5_getAndSetTTL_live (put (New 4 100) [102, 111, 111] (some ⟨10, 7⟩)) (by decide)
      [102, 111, 111] 3 5 ⟨10, 7⟩ (by decide) (by decide)⟩

/-- C6: an override ttl is not remembered. In a well-formed store, after
`Add(k, t)`, if `GetAndSetTTL(k, t2)` with `t2 ≠ 0` returns `true` and a
following `GetAndSetTTL(k, 0)` at clock reading `n` returns `true` too, then
after that second call the key holds the stored ttl `t` and the deadline
`n + t` (the `int64` sum, equal to the integer sum when that is in range),
which differs from `n + t2` whenever `t2` differs from `t`. -/
theorem C6_override_not_remembered (m : TimeToLive) (hm : WF m) (key : Key)
    (t t2 na n1 n : Int) (ht2 : t2 ≠ 0) (m1 m2 m3 : TimeToLive)
    (hadd : Add m na key t = some m1)
    (hset : GetAndSetTTL m1 n1 key t2 = some (m2, true))
    (hzero : GetAndSetTTL m2 n key 0 = some (m3, true)) :
    lookup m3 key = some ⟨add64 n t, t⟩ ∧
    (InInt64 (n + t) → lookup m3 key = some ⟨n + t, t⟩) ∧
    (InInt64 t → InInt64 t2 → t2 ≠ t → add64 n t ≠ add64 n t2) := by
  rw [Add_eq hm] at hadd
  simp only [Option.some.injEq] at hadd
  subst hadd
  have hw1 : WF (put m key (some ⟨add64 na t, t⟩)) := put_wf hm _ _
  have hl1 : lookup (put m key (some ⟨add64 na t, t⟩)) key = some ⟨add64 na t, t⟩ :=
    lookup_put_self hm key _
  have hl2 : lookup m2 key = some ⟨add64 n1 t2, t⟩ ∧ WF m2 := by
    by_cases hd : (⟨add64 na t, t⟩ : entry).deadline ≤ n1
    · rw [GetAndSetTTL_expired hw1 t2 hl1 hd] at hset
      simp at hset
    · rw [GetAndSetTTL_live hw1 t2 hl1 (not_le.mp hd)] at hset
      simp only [Option.some.injEq, Prod.mk.injEq, and_true, ht2, if_false] at hset
      subst hset
      exact ⟨lookup_put_self hw1 key _, put_wf hw1 _ _⟩
  obtain ⟨hl2, hw2⟩ := hl2
  have hl3 : lookup m3 key = some ⟨add64 n t, t⟩ := by
    by_cases hd : (⟨add64 n1 t2, t⟩ : entry).deadline ≤ n
    · rw [GetAndSetTTL_expired hw2 0 hl2 hd] at hzero
      simp at hzero
    · rw [GetAndSetTTL_live hw2 0 hl2 (not_le.mp hd)] at hzero
      simp only [Option.some.injEq, Prod.mk.injEq, and_true, if_true] at hzero
      subst hzero
      exact lookup_put_self hw2 key _
  refine ⟨hl3, ?_, ?_⟩
  · intro hin
    rw [hl3, add64_of_inInt64 hin]
  · intro hi hi2 hne hc
    exact hne (add64_left_cancel hi hi2 hc).symm

/-- Witness of C6: `New(4, 100)`, `Add("foo", 10)` at 0, `GetAndSetTTL("foo", 3)`
at 5 and `GetAndSetTTL("foo", 0)` at 6; the final deadline is `6 + 10`. -/
theorem C6_override_not_remembered_witness :
    WF (New 4 100) ∧ (3 : Int) ≠ 0 ∧
    Add (New 4 100) 0 [102, 111, 111] 10
      = some (put (New 4 100) [102, 111, 111] (some ⟨10, 10⟩)) ∧
    GetAndSetTTL (put (New 4 100) [102, 111, 111] (some ⟨10, 10⟩)) 5 [102, 111, 111] 3
      = some (put (New 4 100) [102, 111, 111] (some ⟨8, 10⟩), true) ∧
    GetAndSetTTL (put (New 4 100) [102, 111, 111] (some ⟨8, 10⟩)) 6 [102, 111, 111] 0
      = some (put (New 4 100) [102, 111, 111] (some ⟨16, 10⟩), true) ∧
    (lookup (put (New 4 100) [102, 111, 111] (some ⟨16, 10⟩)) [102, 111, 111]
      = some ⟨add64 6 10, 10⟩ ∧
    (InInt64 (6 + 10) → lookup (put (New 4 100) [102, 111, 111] (some ⟨16, 10⟩)) [102, 111, 111]
      = some ⟨6 + 10, 10⟩) ∧
    (InInt64 10 → InInt64 3 → (3 : Int) ≠ 10 → add64 6 10 ≠ add64 6 3)) :=
  have hw : WF (New 4 100) := by decide
  have h1 := Add_eq hw 0 [102, 111, 111] 10
  have h2 := GetAndSetTTL_live (put_wf hw [102, 111, 111] (some ⟨10, 10⟩)) 3
    (lookup_put_self hw [102, 111, 111] (some ⟨10, 10⟩)) (by decide : (5 : Int) < 10)
  have h3 := GetAndSetTTL_live (put_wf hw [102, 111, 111] (some ⟨8, 10⟩)) 0
    (lookup_put_self hw [102, 111, 111] (some ⟨8, 10⟩)) (by decide : (6 : Int) < 8)
  have e1 : Add (New 4 100) 0 [102, 111, 111] 10
      = some (put (New 4 100) [102, 111, 111] (some ⟨10, 10⟩)) := h1
  have e2 : GetAndSetTTL (put (New 4 100) [102, 111, 111] (some ⟨10, 10⟩)) 5 [102, 111, 111] 3
      = some (put (New 4 100) [102, 111, 111] (some ⟨8, 10⟩), true) := by
    rw [h2, put_put hw]; rfl
  have e3 : GetAndSetTTL (put (New 4 100) [102, 111, 111] (some ⟨8, 10⟩)) 6 [102, 111, 111] 0
      = some (put (New 4 100) [102, 111, 111] (some ⟨16, 10⟩), true) := by
    rw [h3, put_put hw]; rfl
  ⟨hw, by decide, e1, e2, e3,
    C6_override_not_remembered (New 4 100) hw [102, 111, 111] 10 3 0 5 6 (by decide)
      _ _ _ e1 e2 e3⟩

/-- C7, as stated, fails: `New(4, 100ms)`, key `"foo"`, `t = math.MaxInt64`,
`Add` at a clock reading of the year 2023 and `GetAndRefresh` one nanosecond
later. The deadline stored by `Add` wrapped to a negative number, so the first
`GetAndRefresh` already returns `false`. -/
theorem C7_counterexample :
    WF (New 4 100000000) ∧ (0 : Int) < 9223372036854775807 ∧
    List.Chain (Within 9223372036854775807) 1700000000000000000 [1700000000000000001] ∧
    InInt64 9223372036854775807 ∧ InInt64 1700000000000000000 ∧
    InInt64 1700000000000000001 ∧
    ((Add (New 4 100000000) 1700000000000000000 [102, 111, 111] 9223372036854775807).bind
      (fun m1 => GetAndRefresh m1 1700000000000000001 [102, 111, 111])).map Prod.snd
      = some false :=
  ⟨by decide, by decide, List.Chain.cons (by decide) List.Chain.nil, by decide, by decide,
    by decide, by decide⟩

/-- C7, amended: sliding expiration. In every well-formed store, for every key
and ttl `t > 0`, after `Add(k, t)` at clock reading `n0`, for every finite
sequence of clock readings `n0 ≤ n1 ≤ n2 ≤ ...` in which each reading is less
than `t` after the previous one and `n_i + t` never exceeds the largest
`int64`: every `GetAndRefresh(k)` made at `n1, n2, ...` returns `true`, and
after the call at `n_i` the key holds the deadline `n_i + t` and the stored ttl
`t`, however long the sequence is. -/
theorem C7_sliding_expiration (m : TimeToLive) (hm : WF m) (key : Key) (t n0 : Int)
    (ns : List Int) (ht : 0 < t) (hchain : List.Chain (Within t) n0 ns)
    (hin : ∀ n ∈ n0 :: ns, InInt64 n ∧ n + t ≤ maxInt64) :
    ∃ m1, Add m n0 key t = some m1 ∧
    (∃ m2, run m1 (ns.map (fun n => (n, Op.getAndRefresh key)))
        = some (m2, ns.map (fun _ => some true))) ∧
    ∀ pre n post, ns = pre ++ n :: post →
      ∃ mi, run m1 ((pre ++ [n]).map (fun x => (x, Op.getAndRefresh key)))
          = some (mi, (pre ++ [n]).map (fun _ => some true)) ∧
        lookup mi key = some ⟨n + t, t⟩ := by
  have hsum : ∀ n ∈ n0 :: ns, InInt64 (n + t) := by
    intro n hn
    obtain ⟨h1, h2⟩ := hin n hn
    exact ⟨by have := h1.1; omega, h2⟩
  have hw1 : WF (put m key (some ⟨add64 n0 t, t⟩)) := put_wf hm _ _
  have hl1 : lookup (put m key (some ⟨add64 n0 t, t⟩)) key = some ⟨n0 + t, t⟩ := by
    rw [lookup_put_self hm, add64_of_inInt64 (hsum n0 (List.mem_cons_self _ _))]
  refine ⟨_, Add_eq hm n0 key t, ?_, ?_⟩
  · obtain ⟨m2, hrun, _, _⟩ := run_refresh_chain key t ns _ n0 hw1 hl1 hchain
      (fun n hn => hsum n (List.mem_cons_of_mem _ hn))
    exact ⟨m2, hrun⟩
  · intro pre n post hsplit
    subst hsplit
    have hpre : List.Chain (Within t) n0 (pre ++ [n]) := (List.chain_split.mp hchain).1
    obtain ⟨mi, hrun, _, hl⟩ := run_refresh_chain key t (pre ++ [n]) _ n0 hw1 hl1 hpre
      (fun x hx => hsum x (List.mem_cons_of_mem _ (by
        rcases List.mem_append.mp hx with h | h
        · exact List.mem_append_left _ h
        · exact List.mem_append_right _ (by
            rw [List.mem_singleton] at h
            rw [h]
            exact List.mem_cons_self _ _))))
    refine ⟨mi, hrun, ?_⟩
    rw [hl]
    simp

/-- Witness of C7 (amended): `New(4, 100ms)`, key `"foo"`, `t = 100`, `Add` at 0
and `GetAndRefresh` at 50, 100 and 149. -/
theorem C7_sliding_expiration_witness :
    WF (New 4 100000000) ∧ (0 : Int) < 100 ∧ List.Chain (Within 100) 0 [50, 100, 149] ∧
    (∀ n ∈ (0 : Int) :: [50, 100, 149], InInt64 n ∧ n + 100 ≤ maxInt64) ∧
    ∃ m1, Add (New 4 100000000) 0 [102, 111, 111] 100 = some m1 ∧
    (∃ m2, run m1 ([50, 100, 149].map (fun n => (n, Op.getAndRefresh [102, 111, 111])))
        = some (m2, [50, 100, 149].map (fun _ => some true))) ∧
    ∀ pre n post, [50, 100, 149] = pre ++ n :: post →
      ∃ mi, run m1 ((pre ++ [n]).map (fun x => (x, Op.getAndRefresh [102, 111, 111])))
          = some (mi, (pre ++ [n]).map (fun _ => some true)) ∧
        lookup mi [102, 111, 111] = some ⟨n + 100, 100⟩ :=
  have hchain : List.Chain (Within 100) 0 [50, 100, 149] :=
    List.Chain.cons (by decide) (List.Chain.cons (by decide)
      (List.Chain.cons (by decide) List.Chain.nil))
  ⟨by decide, by decide, hchain, by decide,
    C7_sliding_expiration (New 4 100000000) (by decide) [102, 111, 111] 100 0 [50, 100, 149]
      (by decide) hchain (by decide)⟩

/-- C8: for every store, key and clock reading, `GetAndRefresh(k)` and
`GetAndSetTTL(k, 0)` have the same outcome: the same returned boolean and the
same store afterwards (and the same panic, if any), whether the key is absent,
expired or live. -/
theorem C8_getAndRefresh_eq (m : TimeToLive) (now : Int) (key : Key) :
    GetAndRefresh m now key = GetAndSetTTL m now key 0 := by
  unfold GetAndRefresh
  rfl

/-- C9: `Add` is an unconditional upsert. In every well-formed store, for every
key, ttl and clock reading, `Add(k, t)` returns, and afterwards the key is
present with stored ttl `t` and deadline the `int64` sum `now + t` (the integer
sum when that is in range); the store after the call is the same whatever the
slot of the key held before (nothing, a live entry or an expired one). -/
theorem C9_add_upsert (m : TimeToLive) (hm : WF m) (key : Key) (t now : Int) :
    ∃ m1, Add m now key t = some m1 ∧
      lookup m1 key = some ⟨add64 now t, t⟩ ∧
      (InInt64 (now + t) → lookup m1 key = some ⟨now + t, t⟩) ∧
      ∀ prev : Option entry, Add (put m key prev) now key t = some m1 := by
  refine ⟨_, Add_eq hm now key t, lookup_put_self hm key _, ?_, ?_⟩
  · intro hin
    rw [lookup_put_self hm, add64_of_inInt64 hin]
  · intro prev
    rw [Add_eq (put_wf hm key prev), put_put hm]

/-- Witness of C9: `New(4, 100)`, `Add("foo", 10)` at clock reading 5. -/
theorem C9_add_upsert_witness :
    WF (New 4 100) ∧
    ∃ m1, Add (New 4 100) 5 [102, 111, 111] 10 = some m1 ∧
      lookup m1 [102, 111, 111] = some ⟨add64 5 10, 10⟩ ∧
      (InInt64 (5 + 10) → lookup m1 [102, 111, 111] = some ⟨5 + 10, 10⟩) ∧
      ∀ prev : Option entry,
        Add (put (New 4 100) [102, 111, 111] prev) 5 [102, 111, 111] 10 = some m1 :=
  ⟨by decide, C9_add_upsert (New 4 100) (by decide) [102, 111, 111] 10 5⟩

/-- C10, as stated, fails: `New(4, 100)`, `Add("foo", 10)` at clock reading 0,
then `GetAndSetTTL("foo", -1)` twice at clock reading 5. The first call returns
`true` and stores the deadline 4; the second finds the key expired, returns
`false` and removes it. -/
theorem C10_counterexample :
    WF (New 4 100) ∧
    ((Add (New 4 100) 0 [102, 111, 111] 10).bind (fun m0 =>
      (step m0 5 (Op.getAndSetTTL [102, 111, 111] (-1))).bind (fun r1 =>
        (step r1.1 5 (Op.getAndSetTTL [102, 111, 111] (-1))).map (fun r2 =>
          (r1.2, lookup r1.1 [102, 111, 111], r2.2, lookup r2.1 [102, 111, 111]))))
      = some (some true, some ⟨4, 10⟩, some false, none)) := by
  decide

/-- C10, amended: in every well-formed store, `Add`, `AddDefault` and `Get` with
any arguments, and `GetAndRefresh` and `GetAndSetTTL` whenever the key is absent
or expired or the deadline they store is later than the clock reading
(`StaysLive`: the ttl in effect is positive and `now + ttl` does not overflow),
are idempotent at a fixed clock reading: the call returns, and invoking it
again at that clock reading returns the same result and leaves the same store
as invoking it once. -/
theorem C10_idempotent_calls (m : TimeToLive) (hm : WF m) (now : Int) (op : Op)
    (h : op.staysLive m now) :
    ∃ m1 r, step m now op = some (m1, r) ∧ step m1 now op = some (m1, r) := by
  have refresh : ∀ (key : Key) (a : Int), StaysLive m now key a →
      ∃ m1 b, GetAndSetTTL m now key a = some (m1, b) ∧
        GetAndSetTTL m1 now key a = some (m1, b) := by
    intro key a hs
    unfold StaysLive at hs
    cases hk : lookup m key with
    | none =>
      exact ⟨m, false, GetAndSetTTL_absent hm now a hk, GetAndSetTTL_absent hm now a hk⟩
    | some e =>
      by_cases hd : e.deadline ≤ now
      · exact ⟨_, false, GetAndSetTTL_expired hm a hk hd,
          GetAndSetTTL_absent (put_wf hm _ _) now a (lookup_put_self hm key none)⟩
      · rw [hk] at hs
        have hs1 := hs (not_le.mp hd)
        refine ⟨_, true, GetAndSetTTL_live hm a hk (not_le.mp hd), ?_⟩
        have h2 := GetAndSetTTL_live (put_wf hm key
          (some ⟨add64 now (if a = 0 then e.ttl else a), e.ttl⟩)) a
          (lookup_put_self hm key _) hs1
        rw [put_put hm] at h2
        exact h2
  cases op with
  | add key ttl =>
    refine ⟨put m key (some ⟨add64 now ttl, ttl⟩), none, by simp [step, Add_eq hm], ?_⟩
    simp [step, Add_eq (put_wf hm _ _), put_put hm]
  | addDefault key =>
    refine ⟨put m key (some ⟨add64 now m.ttl, m.ttl⟩), none,
      by simp [step, AddDefault_eq hm], ?_⟩
    simp [step, AddDefault_eq (put_wf hm _ _), put_put hm, put_ttl]
  | get key =>
    cases hk : lookup m key with
    | none => exact ⟨m, some false, by simp [step, Get_absent hm now hk],
        by simp [step, Get_absent hm now hk]⟩
    | some e =>
      by_cases hd : e.deadline ≤ now
      · exact ⟨put m key none, some false, by simp [step, Get_expired hm hk hd],
          by simp [step, Get_absent (put_wf hm _ _) now (lookup_put_self hm key none)]⟩
      · exact ⟨m, some true, by simp [step, Get_live hm hk (not_le.mp hd)],
          by simp [step, Get_live hm hk (not_le.mp hd)]⟩
  | getAndRefresh key =>
    obtain ⟨m1, b, h1, h2⟩ := refresh key 0 h
    exact ⟨m1, some b, by simp [step, GetAndRefresh, h1], by simp [step, GetAndRefresh, h2]⟩
  | getAndSetTTL key ttl =>
    obtain ⟨m1, b, h1, h2⟩ := refresh key ttl h
    exact ⟨m1, some b, by simp [step, h1], by simp [step, h2]⟩

/-- Witness of C10 (amended): a four-shard store holding `"foo"` with deadline
10 and stored ttl 7, and the call `GetAndSetTTL("foo", 3)` at clock reading 5. -/
theorem C10_idempotent_calls_witness :
    WF (put (New 4 100) [102, 111, 111] (some ⟨10, 7⟩)) ∧
    (Op.getAndSetTTL [102, 111, 111] 3).staysLive
      (put (New 4 100) [102, 111, 111] (some ⟨10, 7⟩)) 5 ∧
    ∃ m1 r, step (put (New 4 100) [102, 111, 111] (some ⟨10, 7⟩)) 5
          (Op.getAndSetTTL [102, 111, 111] 3) = some (m1, r) ∧
      step m1 5 (Op.getAndSetTTL [102, 111, 111] 3) = some (m1, r) :=
  ⟨by decide, by decide,
    C10_idempotent_calls (put (New 4 100) [102, 111, 111] (some ⟨10, 7⟩)) (by decide) 5
      (Op.getAndSetTTL [102, 111, 111] 3) (by decide)⟩

/-- C11: absent and expired are indistinguishable. For every well-formed store
`m` in which the key is present in its routed shard but expired at clock
reading `n` (`deadline ≤ n`), and the store `put m key none` that is `m` with
the key removed, every sequence of public calls run at non-decreasing clock
readings starting at `n` runs to the end on both stores and returns the same
sequence of results on both. -/
theorem C11_absent_expired_indistinguishable (m : TimeToLive) (hm : WF m) (key : Key)
    (e : entry) (n : Int) (hk : lookup m key = some e) (hexp : e.deadline ≤ n)
    (ops : List (Int × Op))
    (hmono : List.Chain (fun a b => a ≤ b) n (ops.map Prod.fst)) :
    ∃ m1 m2 rs, run m ops = some (m1, rs) ∧ run (put m key none) ops = some (m2, rs) := by
  have hsim : Sim key n m (put m key none) := by
    refine ⟨hm, put_wf hm _ _, rfl, ?_, Or.inr ⟨lookup_put_self hm key none, e, hk, hexp⟩⟩
    intro k hne
    rw [lookup_put_ne hm key none hne]
  have hall : ∀ x ∈ ops, n ≤ x.1 := by
    intro x hx
    exact le_of_chain_le hmono x.1 (List.mem_map_of_mem Prod.fst hx)
  exact run_sim ops hsim hall

/-- Witness of C11: a four-shard store holding `"foo"` with deadline 10, seen
from clock reading 10 on: `Get("foo")` at 10, `Add("foo", 5)` at 12 and
`GetAndRefresh("foo")` at 12. -/
theorem C11_absent_expired_indistinguishable_witness :
    WF (put (New 4 100) [102, 111, 111] (some ⟨10, 10⟩)) ∧
    lookup (put (New 4 100) [102, 111, 111] (some ⟨10, 10⟩)) [102, 111, 111] = some ⟨10, 10⟩ ∧
    (⟨10, 10⟩ : entry).deadline ≤ 10 ∧
    List.Chain (fun a b => a ≤ b) (10 : Int)
      ([((10 : Int), Op.get [102, 111, 111]), (12, Op.add [102, 111, 111] 5),
        (12, Op.getAndRefresh [102, 111, 111])].map Prod.fst) ∧
    ∃ m1 m2 rs,
      run (put (New 4 100) [102, 111, 111] (some ⟨10, 10⟩))
        [((10 : Int), Op.get [102, 111, 111]), (12, Op.add [102, 111, 111] 5),
          (12, Op.getAndRefresh [102, 111, 111])] = some (m1, rs) ∧
      run (put (put (New 4 100) [102, 111, 111] (some ⟨10, 10⟩)) [102, 111, 111] none)
        [((10 : Int), Op.get [102, 111, 111]), (12, Op.add [102, 111, 111] 5),
          (12, Op.getAndRefresh [102, 111, 111])] = some (m2, rs) :=
  have hchain : List.Chain (fun a b => a ≤ b) (10 : Int)
      ([((10 : Int), Op.get [102, 111, 111]), (12, Op.add [102, 111, 111] 5),
        (12, Op.getAndRefresh [102, 111, 111])].map Prod.fst) :=
    List.Chain.cons (by decide) (List.Chain.cons (by decide)
      (List.Chain.cons (by decide) List.Chain.nil))
  ⟨by decide, by decide, by decide, hchain,
    C11_absent_expired_indistinguishable (put (New 4 100) [102, 111, 111] (some ⟨10, 10⟩))
      (by decide) [102, 111, 111] ⟨10, 10⟩ 10 (by decide) (by decide) _ hchain⟩

/-- C12: idempotent absence. In every well-formed store, once `Get(k)` has
returned `false`, every sequence of later calls without an `Add` or `AddDefault`
of `k` (any other calls on `k` or on other keys, at any clock readings) runs to
the end, and every call on `k` in it (`Get`, `GetAndRefresh`,
`GetAndSetTTL` with any ttl) returns `false`; the key is still absent at the
end. -/
theorem C12_idempotent_absence (m : TimeToLive) (hm : WF m) (key : Key) (now : Int)
    (hfalse : (Get m now key).map Prod.snd = some false) (ops : List (Int × Op))
    (hops : ∀ x ∈ ops, x.2.key = key → x.2.isAdd = false) :
    ∃ m1, Get m now key = some (m1, false) ∧
    ∃ m2 rs, run m1 ops = some (m2, rs) ∧ rs.length = ops.length ∧
      lookup m2 key = none ∧
      ∀ p ∈ ops.zip rs, p.1.2.key = key → p.2 = some false := by
  have hget : ∃ m1, Get m now key = some (m1, false) ∧ WF m1 ∧ lookup m1 key = none := by
    cases hk : lookup m key with
    | none => exact ⟨m, Get_absent hm now hk, hm, hk⟩
    | some e =>
      by_cases hd : e.deadline ≤ now
      · exact ⟨_, Get_expired hm hk hd, put_wf hm _ _, lookup_put_self hm key none⟩
      · rw [Get_live hm hk (not_le.mp hd)] at hfalse
        simp at hfalse
  obtain ⟨m1, h1, hw1, hl1⟩ := hget
  exact ⟨m1, h1, run_absent ops hw1 hl1 hops⟩

/-- Witness of C12, the scenario of the specification: `New(4, 100ms)`,
`AddDefault("foo")` at clock reading 0, `Get("foo")` is `true`; 150ms later
`Get("foo")` is `false`, and so are a second `Get("foo")` and a
`GetAndRefresh("foo")` after a call on another key. -/
theorem C12_idempotent_absence_witness :
    AddDefault (New 4 100000000) 0 [102, 111, 111]
      = some (put (New 4 100000000) [102, 111, 111] (some ⟨100000000, 100000000⟩)) ∧
    (Get (put (New 4 100000000) [102, 111, 111] (some ⟨100000000, 100000000⟩)) 0
      [102, 111, 111]).map Prod.snd = some true ∧
    WF (put (New 4 100000000) [102, 111, 111] (some ⟨100000000, 100000000⟩)) ∧
    (Get (put (New 4 100000000) [102, 111, 111] (some ⟨100000000, 100000000⟩)) 150000000
      [102, 111, 111]).map Prod.snd = some false ∧
    (∀ x ∈ [((150000000 : Int), Op.get [102, 111, 111]), (160000000, Op.add [98, 97, 114] 5),
        (170000000, Op.getAndRefresh [102, 111, 111])],
      x.2.key = [102, 111, 111] → x.2.isAdd = false) ∧
    ∃ m1, Get (put (New 4 100000000) [102, 111, 111] (some ⟨100000000, 100000000⟩)) 150000000
        [102, 111, 111] = some (m1, false) ∧
    ∃ m2 rs, run m1 [((150000000 : Int), Op.get [102, 111, 111]),
        (160000000, Op.add [98, 97, 114] 5),
        (170000000, Op.getAndRefresh [102, 111, 111])] = some (m2, rs) ∧
      rs.length = [((150000000 : Int), Op.get [102, 111, 111]),
        (160000000, Op.add [98, 97, 114] 5),
        (170000000, Op.getAndRefresh [102, 111, 111])].length ∧
      lookup m2 [102, 111, 111] = none ∧
      ∀ p ∈ [((150000000 : Int), Op.get [102, 111, 111]), (160000000, Op.add [98, 97, 114] 5),
          (170000000, Op.getAndRefresh [102, 111, 111])].zip rs,
        p.1.2.key = [102, 111, 111] → p.2 = some false :=
  ⟨AddDefault_eq (by decide) 0 [102, 111, 111], by decide, by decide, by decide, by decide,
    C12_idempotent_absence (put (New 4 100000000) [102, 111, 111] (some ⟨100000000, 100000000⟩))
      (by decide) [102, 111, 111] 150000000 (by decide) _ (by decide)⟩

/-- C13: `New` never fails and clamps the shard count. For every shard argument
`n` and default ttl `d`, the store `New(n, d)` has shard count 1 when `n < 1`
and `n` otherwise, default ttl `d`, and exactly that many mutexes and maps,
every map empty; consequently `Get`, `GetAndRefresh` and `GetAndSetTTL` (with
any ttl) return `false` for every key and leave the fresh store as it is. -/
theorem C13_new_clamps (n : Nat) (d : Int) :
    (New n d).shard = (if n < 1 then 1 else n) ∧ (New n d).ttl = d ∧
    (New n d).mm.length = (New n d).shard ∧ (New n d).mxs.length = (New n d).shard ∧
    (∀ sh ∈ (New n d).mm, ∀ k, sh k = none) ∧
    ∀ (key : Key) (now : Int),
      Get (New n d) now key = some (New n d, false) ∧
      GetAndRefresh (New n d) now key = some (New n d, false) ∧
      ∀ a, GetAndSetTTL (New n d) now key a = some (New n d, false) := by
  have hw := New_wf n d
  refine ⟨rfl, rfl, hw.2.2, hw.2.1, New_mm_empty n d, ?_⟩
  intro key now
  have hl := New_lookup n d key
  exact ⟨Get_absent hw now hl, GetAndSetTTL_absent hw now 0 hl,
    fun a => GetAndSetTTL_absent hw now a hl⟩

/-- C14: for every store obtained from `New(n, d)` (by any sequence of calls),
every key and every clock reading, `AddDefault(k)` has the outcome of
`Add(k, d)`: it returns, and afterwards the key is present with stored ttl `d`
and deadline the `int64` sum `now + d` (the integer sum when that is in
range). -/
theorem C14_addDefault_eq_add (n : Nat) (d : Int) (ops : List (Int × Op)) (now : Int)
    (key : Key) :
    ∃ m rs, run (New n d) ops = some (m, rs) ∧
      AddDefault m now key = Add m now key d ∧
      ∃ m1, AddDefault m now key = some m1 ∧
        lookup m1 key = some ⟨add64 now d, d⟩ ∧
        (InInt64 (now + d) → lookup m1 key = some ⟨now + d, d⟩) := by
  obtain ⟨m, rs, hrun, hw, _, ht, _, _, _⟩ := run_total (New_wf n d) ops
  have hd : m.ttl = d := ht
  refine ⟨m, rs, hrun, ?_, put m key (some ⟨add64 now d, d⟩), ?_, lookup_put_self hw key _, ?_⟩
  · unfold AddDefault
    rw [hd]
  · rw [AddDefault_eq hw, hd]
  · intro hin
    rw [lookup_put_self hw, add64_of_inInt64 hin]

/-- C15: routing determinism. The index that `getMM` computes for a key is
`ChecksumIEEE(key) mod shard` (with `ChecksumIEEE` the CRC-32 of the IEEE
polynomial, whose check value on `"123456789"` is `0xcbf43926`); it is the same
in any two stores with the same shard count; and a sequence of calls that runs
to the end changes neither the shard count nor the default ttl, so the index of
every key is the same after the sequence as before it. -/
theorem C15_routing_determinism (m : TimeToLive) (ops : List (Int × Op)) (m1 : TimeToLive)
    (rs : List (Option Bool)) (hrun : run m ops = some (m1, rs)) (key : Key) :
    m1.shard = m.shard ∧ m1.ttl = m.ttl ∧
    shardIndex m1 key = shardIndex m key ∧
    shardIndex m key = ChecksumIEEE key % m.shard ∧
    (∀ i mx sh, getMM m key = some (i, mx, sh) → i = ChecksumIEEE key % m.shard) ∧
    (∀ i mx sh, getMM m1 key = some (i, mx, sh) → i = ChecksumIEEE key % m.shard) ∧
    (∀ m2 : TimeToLive, m2.shard = m.shard → shardIndex m2 key = shardIndex m key) ∧
    ChecksumIEEE [49, 50, 51, 52, 53, 54, 55, 56, 57] = 0xcbf43926 := by
  obtain ⟨hs, ht, _, _⟩ := run_fields ops hrun
  have hidx : ∀ (s : TimeToLive) i mx sh, getMM s key = some (i, mx, sh) →
      i = ChecksumIEEE key % s.shard := by
    intro s i mx sh hg
    unfold getMM at hg
    by_cases h0 : s.shard = 0
    · simp [h0] at hg
    · simp only [h0, if_false] at hg
      split at hg
      · simp only [Option.some.injEq, Prod.mk.injEq] at hg
        exact hg.1.symm
      · simp at hg
  refine ⟨hs, ht, ?_, rfl, hidx m, ?_, ?_, ChecksumIEEE_check⟩
  · unfold shardIndex
    rw [hs]
  · intro i mx sh hg
    rw [← hs]
    exact hidx m1 i mx sh hg
  · intro m2 h2
    unfold shardIndex
    rw [h2]

/-- Witness of C15: `New(4, 100)`, the calls `Add("foo", 10)` at 0 and
`Get("foo")` at 20, and the key `"foo"`. -/
theorem C15_routing_determinism_witness :
    ∃ m1 rs, run (New 4 100) [((0 : Int), Op.add [102, 111, 111] 10),
        (20, Op.get [102, 111, 111])] = some (m1, rs) ∧
    (m1.shard = (New 4 100).shard ∧ m1.ttl = (New 4 100).ttl ∧
    shardIndex m1 [102, 111, 111] = shardIndex (New 4 100) [102, 111, 111] ∧
    shardIndex (New 4 100) [102, 111, 111] = ChecksumIEEE [102, 111, 111] % (New 4 100).shard ∧
    (∀ i mx sh, getMM (New 4 100) [102, 111, 111] = some (i, mx, sh) →
      i = ChecksumIEEE [102, 111, 111] % (New 4 100).shard) ∧
    (∀ i mx sh, getMM m1 [102, 111, 111] = some (i, mx, sh) →
      i = ChecksumIEEE [102, 111, 111] % (New 4 100).shard) ∧
    (∀ m2 : TimeToLive, m2.shard = (New 4 100).shard →
      shardIndex m2 [102, 111, 111] = shardIndex (New 4 100) [102, 111, 111]) ∧
    ChecksumIEEE [49, 50, 51, 52, 53, 54, 55, 56, 57] = 0xcbf43926) :=
  match run_total (New_wf 4 100) [((0 : Int), Op.add [102, 111, 111] 10),
      (20, Op.get [102, 111, 111])] with
  | ⟨m1, rs, hrun, _⟩ =>
    ⟨m1, rs, hrun, C15_routing_determinism (New 4 100) _ m1 rs hrun [102, 111, 111]⟩

/-- C16: lock discipline of the public calls. In every well-formed store, every
call (`Add`, `AddDefault`, `Get`, `GetAndRefresh`, `GetAndSetTTL`) returns the
same store and value as without the recording, and its lock events are exactly
one `Lock` followed by one `Unlock`, both of the mutex of the shard its key is
routed to (index `ChecksumIEEE(key) mod shard`, in bounds of the mutex list),
on every path. So the mutex is released when the call returns, at every point
of the call at most one mutex is held and it is that one, and the `Lock`
happens while no mutex is held: a call never waits for a mutex while holding
another, which is what excludes a deadlock across shards. -/
theorem C16_lock_discipline (m : TimeToLive) (hm : WF m) (now : Int) (op : Op) :
    ∃ m1 r evs, stepTraced m now op = some (m1, r, evs) ∧
      step m now op = some (m1, r) ∧
      evs = [LockEvent.lock (ChecksumIEEE op.key % m.shard),
        LockEvent.unlock (ChecksumIEEE op.key % m.shard)] ∧
      ChecksumIEEE op.key % m.shard < m.mxs.length ∧
      held evs = [] ∧
      (∀ pre suf, evs = pre ++ suf →
        (held pre).length ≤ 1 ∧ ∀ j ∈ held pre, j = ChecksumIEEE op.key % m.shard) ∧
      (∀ pre j suf, evs = pre ++ LockEvent.lock j :: suf →
        held pre = [] ∧ j = ChecksumIEEE op.key % m.shard) ∧
      (∀ pre j suf, evs = pre ++ LockEvent.unlock j :: suf →
        held pre = [ChecksumIEEE op.key % m.shard] ∧ j = ChecksumIEEE op.key % m.shard) := by
  have hstep := step_eq hm now op
  have htr := stepTraced_eq m now op
  rw [hstep] at htr
  have hlt : ChecksumIEEE op.key % m.shard < m.mxs.length := by
    rw [hm.2.1]
    exact Nat.mod_lt _ hm.1
  obtain ⟨h1, h2, h3, h4⟩ := lockUnlock_discipline (ChecksumIEEE op.key % m.shard)
  exact ⟨_, _, _, htr, hstep, rfl, hlt, h1, h2, h3, h4⟩

/-- Witness of C16: `New(4, 100)` and the call `Add("foo", 10)` at clock
reading 0. -/
theorem C16_lock_discipline_witness :
    WF (New 4 100) ∧
    ∃ m1 r evs, stepTraced (New 4 100) 0 (Op.add [102, 111, 111] 10) = some (m1, r, evs) ∧
      step (New 4 100) 0 (Op.add [102, 111, 111] 10) = some (m1, r) ∧
      evs = [LockEvent.lock (ChecksumIEEE (Op.add [102, 111, 111] 10).key % (New 4 100).shard),
        LockEvent.unlock (ChecksumIEEE (Op.add [102, 111, 111] 10).key % (New 4 100).shard)] ∧
      ChecksumIEEE (Op.add [102, 111, 111] 10).key % (New 4 100).shard
        < (New 4 100).mxs.length ∧
      held evs = [] ∧
      (∀ pre suf, evs = pre ++ suf →
        (held pre).length ≤ 1 ∧
        ∀ j ∈ held pre, j = ChecksumIEEE (Op.add [102, 111, 111] 10).key % (New 4 100).shard) ∧
      (∀ pre j suf, evs = pre ++ LockEvent.lock j :: suf →
        held pre = [] ∧
        j = ChecksumIEEE (Op.add [102, 111, 111] 10).key % (New 4 100).shard) ∧
      (∀ pre j suf, evs = pre ++ LockEvent.unlock j :: suf →
        held pre = [ChecksumIEEE (Op.add [102, 111, 111] 10).key % (New 4 100).shard] ∧
        j = ChecksumIEEE (Op.add [102, 111, 111] 10).key % (New 4 100).shard) :=
  ⟨by decide, C16_lock_discipline (New 4 100) (by decide) 0 (Op.add [102, 111, 111] 10)⟩

/-- C17: shard lookup is total on every reachable store. From `New(n, d)`, for
any `n` (zero included), every sequence of calls runs to the end, and in the
store it reaches the shard count is at least one and equals the length of the
mutex list and of the map list; so for every key the modulo in `getMM` does not
divide by zero, the index `ChecksumIEEE(key) mod shard` is in bounds for both
lists, and `getMM` returns. -/
theorem C17_shard_lookup_total (n : Nat) (d : Int) (ops : List (Int × Op)) :
    ∃ m rs, run (New n d) ops = some (m, rs) ∧
      1 ≤ m.shard ∧ m.mxs.length = m.shard ∧ m.mm.length = m.shard ∧
      ∀ key : Key, m.shard ≠ 0 ∧
        ChecksumIEEE key % m.shard < m.mxs.length ∧
        ChecksumIEEE key % m.shard < m.mm.length ∧
        ∃ mx sh, getMM m key = some (ChecksumIEEE key % m.shard, mx, sh) ∧
          m.mxs[ChecksumIEEE key % m.shard]? = some mx ∧
          m.mm[ChecksumIEEE key % m.shard]? = some sh := by
  obtain ⟨m, rs, hrun, hw, _, _, _, _, _⟩ := run_total (New_wf n d) ops
  refine ⟨m, rs, hrun, hw.1, hw.2.1, hw.2.2, ?_⟩
  intro key
  have hlt : ChecksumIEEE key % m.shard < m.shard := Nat.mod_lt _ hw.1
  have hlt1 : ChecksumIEEE key % m.shard < m.mxs.length := by rw [hw.2.1]; exact hlt
  refine ⟨Nat.pos_iff_ne_zero.mp hw.1, hlt1, by rw [hw.2.2]; exact hlt,
    Mutex.mk, shardOf m key, getMM_eq hw key, ?_, getElem?_shardIndex hw key⟩
  rw [List.getElem?_eq_getElem hlt1]

/-- C18: calls touch only their own key. In every well-formed store, every
call on a key `k` (`Add`, `AddDefault`, `Get`, `GetAndRefresh`,
`GetAndSetTTL`) at any clock reading returns, and for every key `k1 ≠ k` the
entry of `k1` (its presence, stored ttl and deadline) is the same after the
call as before, in the routed shard of `k1` and in every map of the store, the
shard of `k` included; nothing is asked about the clock, so an entry of `k1`
that is already expired stays where it is. -/
theorem C18_calls_touch_own_key (m : TimeToLive) (hm : WF m) (now : Int) (op : Op) :
    ∃ m1 r, step m now op = some (m1, r) ∧
      (∀ k1, k1 ≠ op.key → lookup m1 k1 = lookup m k1) ∧
      m1.mm.length = m.mm.length ∧
      ∀ (i : Nat) (sh : EntryMap), m.mm[i]? = some sh →
        ∃ sh1 : EntryMap, m1.mm[i]? = some sh1 ∧ ∀ k1, k1 ≠ op.key → sh1 k1 = sh k1 := by
  refine ⟨_, _, step_eq hm now op, fun k1 hne => lookup_put_ne hm _ _ hne, ?_, ?_⟩
  · rw [(put_wf hm _ _).2.2, hm.2.2]
    rfl
  · intro i sh hi
    by_cases hidx : i = shardIndex m op.key
    · refine ⟨_, by rw [mm_put hm, if_pos hidx], ?_⟩
      intro k1 hne
      rw [Function.update_noteq hne, shardOf_eq_of_getElem? (hidx ▸ hi)]
    · exact ⟨sh, by rw [mm_put hm, if_neg hidx, hi], fun _ _ => rfl⟩

/-- Witness of C18: a four-shard store holding `"foo"` (deadline 10) and `"bar"`
(deadline 3, expired), and the call `Get("foo")` at clock reading 5. -/
theorem C18_calls_touch_own_key_witness :
    WF (put (put (New 4 100) [102, 111, 111] (some ⟨10, 10⟩)) [98, 97, 114] (some ⟨3, 3⟩)) ∧
    ∃ m1 r, step (put (put (New 4 100) [102, 111, 111] (some ⟨10, 10⟩)) [98, 97, 114]
        (some ⟨3, 3⟩)) 5 (Op.get [102, 111, 111]) = some (m1, r) ∧
      (∀ k1, k1 ≠ (Op.get [102, 111, 111]).key →
        lookup m1 k1 = lookup (put (put (New 4 100) [102, 111, 111] (some ⟨10, 10⟩))
          [98, 97, 114] (some ⟨3, 3⟩)) k1) ∧
      m1.mm.length = (put (put (New 4 100) [102, 111, 111] (some ⟨10, 10⟩)) [98, 97, 114]
        (some ⟨3, 3⟩)).mm.length ∧
      ∀ (i : Nat) (sh : EntryMap), (put (put (New 4 100) [102, 111, 111] (some ⟨10, 10⟩)) [98, 97, 114]
          (some ⟨3, 3⟩)).mm[i]? = some sh →
        ∃ sh1 : EntryMap, m1.mm[i]? = some sh1 ∧ ∀ k1, k1 ≠ (Op.get [102, 111, 111]).key → sh1 k1 = sh k1 :=
  ⟨by decide, C18_calls_touch_own_key
    (put (put (New 4 100) [102, 111, 111] (some ⟨10, 10⟩)) [98, 97, 114] (some ⟨3, 3⟩))
    (by decide) 5 (Op.get [102, 111, 111])⟩

/-- C19: placement invariant. From `New(n, d)` every sequence of calls runs to
the end, and in the store it reaches a key that is present in the map of shard
`i` satisfies `i = ChecksumIEEE(k) mod shard`; hence a key is present in at most
one shard, and the lookup in the routed shard finds the entry whenever the key
is held anywhere in the store. -/
theorem C19_placement_invariant (n : Nat) (d : Int) (ops : List (Int × Op)) :
    ∃ m rs, run (New n d) ops = some (m, rs) ∧
      (∀ (i : Nat) (sh : EntryMap) (k : Key) (e : entry), m.mm[i]? = some sh → sh k = some e → i = ChecksumIEEE k % m.shard) ∧
      (∀ (i j : Nat) (shi shj : EntryMap) (k : Key) (ei ej : entry),
        m.mm[i]? = some shi → m.mm[j]? = some shj →
        shi k = some ei → shj k = some ej → i = j) ∧
      (∀ (i : Nat) (sh : EntryMap) (k : Key) (e : entry), m.mm[i]? = some sh → sh k = some e → lookup m k = some e) := by
  obtain ⟨m, rs, hrun, hw, _, _, _, _, hp⟩ := run_total (New_wf n d) ops
  have hpl : Placed m := hp (New_placed n d)
  refine ⟨m, rs, hrun, ?_, ?_, ?_⟩
  · intro i sh k e hi he
    exact hpl i sh hi k e he
  · intro i j shi shj k ei ej hi hj hei hej
    rw [hpl i shi hi k ei hei, hpl j shj hj k ej hej]
  · intro i sh k e hi he
    exact lookup_of_placed hpl hi he hw

/-- C20: a successful refresh leaves the key live. From `New(n, d)`, every
sequence of calls at non-decreasing clock readings in which no computed sum
`now + ttl` overflows `int64` runs to the end, and in the store it reaches
every entry whose deadline is later than the latest clock reading has a
positive stored ttl; hence whenever `GetAndRefresh(k)` returns `true` at a
clock reading `now` not before the latest one (its own sum not overflowing), a
`Get(k)` at the same reading returns `true` too. By contrast
`GetAndSetTTL(k, a)` with `a < 0` can return `true` and leave the key expired:
after `Add("foo", 10)` at 0, `GetAndSetTTL("foo", -1)` at 5 returns `true` and
the `Get("foo")` at 5 that follows returns `false`. -/
theorem C20_refresh_leaves_live (n : Nat) (d : Int) (ops : List (Int × Op)) (t0 : Int)
    (hmono : List.Chain (fun a b => a ≤ b) t0 (ops.map Prod.fst))
    (hno : RunNoOverflow (New n d) ops) :
    ∃ m rs, run (New n d) ops = some (m, rs) ∧
      LiveHasTTL m ((t0 :: ops.map Prod.fst).getLast (List.cons_ne_nil _ _)) ∧
      (∀ (now : Int) (key : Key),
        (t0 :: ops.map Prod.fst).getLast (List.cons_ne_nil _ _) ≤ now →
        RefreshNoOverflow m now key 0 →
        (GetAndRefresh m now key).map Prod.snd = some true →
        ∃ m1 m2, GetAndRefresh m now key = some (m1, true) ∧
          Get m1 now key = some (m2, true)) ∧
      ((Add (New 4 100) 0 [102, 111, 111] 10).bind (fun m0 =>
        (GetAndSetTTL m0 5 [102, 111, 111] (-1)).bind (fun r1 =>
          (Get r1.1 5 [102, 111, 111]).map (fun r2 => (r1.2, r2.2)))))
        = some (true, false) := by
  have hinv0 : LiveHasTTLRouted (New n d) t0 := by
    intro k e hk
    rw [New_lookup] at hk
    simp at hk
  obtain ⟨m, rs, hrun, hw, hp, hinv⟩ := run_liveHasTTL ops (New_wf n d) hinv0 hmono hno
  have hpl : Placed m := hp (New_placed n d)
  refine ⟨m, rs, hrun, ?_, ?_, by decide⟩
  · intro sh hsh k e he hd
    obtain ⟨i, hi⟩ := List.mem_iff_getElem?.mp hsh
    exact hinv k e (lookup_of_placed hpl hi he hw) hd
  · intro now key hle hsum htrue
    unfold GetAndRefresh at htrue ⊢
    cases hk : lookup m key with
    | none =>
      rw [GetAndSetTTL_absent hw now 0 hk] at htrue
      simp at htrue
    | some e =>
      by_cases hd : e.deadline ≤ now
      · rw [GetAndSetTTL_expired hw 0 hk hd] at htrue
        simp at htrue
      · have hlive : now < e.deadline := not_le.mp hd
        have hpos : 0 < e.ttl := hinv key e hk (lt_of_le_of_lt hle hlive)
        unfold RefreshNoOverflow at hsum
        rw [hk] at hsum
        have hin : InInt64 (now + e.ttl) := by simpa using hsum hlive
        have h1 := GetAndSetTTL_live hw 0 hk hlive
        simp only [if_true] at h1
        rw [add64_of_inInt64 hin] at h1
        refine ⟨_, _, h1, Get_live (put_wf hw _ _) (lookup_put_self hw key _) ?_⟩
        show now < now + e.ttl
        omega

/-- Witness of C20: `New(4, 100)`, then `Add("foo", 10)` at clock reading 0,
`GetAndRefresh("foo")` at 5 and `Get("foo")` at 7. -/
theorem C20_refresh_leaves_live_witness :
    List.Chain (fun a b => a ≤ b) (0 : Int)
      ([((0 : Int), Op.add [102, 111, 111] 10), (5, Op.getAndRefresh [102, 111, 111]),
        (7, Op.get [102, 111, 111])].map Prod.fst) ∧
    RunNoOverflow (New 4 100) [((0 : Int), Op.add [102, 111, 111] 10),
      (5, Op.getAndRefresh [102, 111, 111]), (7, Op.get [102, 111, 111])] ∧
    ∃ m rs, run (New 4 100) [((0 : Int), Op.add [102, 111, 111] 10),
        (5, Op.getAndRefresh [102, 111, 111]), (7, Op.get [102, 111, 111])] = some (m, rs) ∧
      LiveHasTTL m (((0 : Int) :: [((0 : Int), Op.add [102, 111, 111] 10),
        (5, Op.getAndRefresh [102, 111, 111]),
        (7, Op.get [102, 111, 111])].map Prod.fst).getLast (List.cons_ne_nil _ _)) ∧
      (∀ (now : Int) (key : Key),
        ((0 : Int) :: [((0 : Int), Op.add [102, 111, 111] 10),
          (5, Op.getAndRefresh [102, 111, 111]),
          (7, Op.get [102, 111, 111])].map Prod.fst).getLast (List.cons_ne_nil _ _) ≤ now →
        RefreshNoOverflow m now key 0 →
        (GetAndRefresh m now key).map Prod.snd = some true →
        ∃ m1 m2, GetAndRefresh m now key = some (m1, true) ∧
          Get m1 now key = some (m2, true)) ∧
      ((Add (New 4 100) 0 [102, 111, 111] 10).bind (fun m0 =>
        (GetAndSetTTL m0 5 [102, 111, 111] (-1)).bind (fun r1 =>
          (Get r1.1 5 [102, 111, 111]).map (fun r2 => (r1.2, r2.2)))))
        = some (true, false) :=
  have hchain : List.Chain (fun a b => a ≤ b) (0 : Int)
      ([((0 : Int), Op.add [102, 111, 111] 10), (5, Op.getAndRefresh [102, 111, 111]),
        (7, Op.get [102, 111, 111])].map Prod.fst) :=
    List.Chain.cons (by decide) (List.Chain.cons (by decide)
      (List.Chain.cons (by decide) List.Chain.nil))
  have hno : RunNoOverflow (New 4 100) [((0 : Int), Op.add [102, 111, 111] 10),
      (5, Op.getAndRefresh [102, 111, 111]), (7, Op.get [102, 111, 111])] :=
    ⟨by decide, by decide, by decide, trivial⟩
  ⟨hchain, hno, C20_refresh_leaves_live 4 100 _ 0 hchain hno⟩

end Zttl
